import Mathlib

/-!
Verification of the neurust tensor-computation engine.

This file gives a shallow embedding of the library's core: the dense
n-dimensional `Array` over an exact field (we use `ℚ` for the floating-point
element type, so all gradient identities are exact), the broadcasting
machinery (`linalg/utils.rs`, `linalg/broadcast.rs`, `linalg/array.rs`),
reductions (`linalg/reduce.rs`), and the computation graph with its
reverse-mode gradient traversal (`graph/mod.rs`, `graph/arithmetic.rs`,
`graph/reduce.rs`, `tensor/mod.rs`).

Rust panics are modelled as `none` results.  Mutable buffers become explicit
list rewriting (`writeChunk`).  The interior-mutable `Variable` storage shared
between graph nodes and user handles is modelled as an explicit store that is
threaded through every evaluation, so frame properties about it are statable.
Node identity (`ref_as_usize`, the pointer address used as cache/accumulation
key) is modelled by the index of a node in an arena list: distinct live nodes
have distinct addresses, and sharing a node means using the same index.
-/

namespace Neurust

/-- Dense n-dimensional array: a shape vector and a flat row-major buffer
(`linalg/array.rs`, `struct Array`). -/
structure Array where
  shape : List Nat
  data : List ℚ
deriving DecidableEq

/-- `check_shape_positive` from `linalg/utils.rs`: a shape may not contain 0
(the Rust function panics; we return a `Bool`). -/
def check_shape_positive (shape : List Nat) : Bool :=
  shape.all (fun d => d != 0)

/-- `Array::new` from `linalg/array.rs`: fill constructor.  Panics (here:
`none`) if the shape contains a zero. -/
def Array.new (init_value : ℚ) (shape : List Nat) : Option Array :=
  if check_shape_positive shape then
    some { shape := shape, data := List.replicate shape.prod init_value }
  else none

/-- `Array::from_vec` from `linalg/array.rs`: checked constructor from a flat
buffer.  Panics (here: `none`) on a zero dimension or a length mismatch. -/
def Array.from_vec (data : List ℚ) (shape : List Nat) : Option Array :=
  if check_shape_positive shape then
    if data.length == shape.prod then some { shape := shape, data := data }
    else none
  else none

/-- Mixed-radix flatten, least-significant digit first.  This is the loop of
`Array::compute_data_index` (`linalg/array.rs`): it walks the shape from the
right, accumulating `index[i] * prod` with `prod` the product of the
dimensions already passed. -/
def flatR : List Nat → List Nat → Nat
  | c :: cs, d :: ds => c + d * flatR cs ds
  | _, _ => 0

/-- `Array::compute_data_index` from `linalg/array.rs`: row-major flat index
of a multi-index. -/
def compute_data_index (shape index : List Nat) : Nat :=
  flatR index.reverse shape.reverse

/-- `Array::check_index` from `linalg/array.rs`: the index must have the same
length as the shape and be pointwise in bounds. -/
def checkIndex (shape index : List Nat) : Bool :=
  index.length == shape.length &&
    (List.zipWith (fun c d => decide (c < d)) index shape).all id

/-- `Array::i` / the `Index` impl from `linalg/array.rs`: checked element
access (panic on a bad index becomes `none`). -/
def Array.i (a : Array) (index : List Nat) : Option ℚ :=
  if checkIndex a.shape index then a.data.get? (compute_data_index a.shape index)
  else none

/-- `Array::map` from `linalg/array.rs` (also covers `map_assign`, whose
final state is the same buffer). -/
def Array.map (a : Array) (f : ℚ → ℚ) : Array :=
  { shape := a.shape, data := a.data.map f }

/-- `Array::compute_elementwise_with_scalar` from `linalg/array.rs`: scalar
ops touch every element, no broadcasting involved (also the final state of
`assign_compute_elementwise_with_scalar`). -/
def compute_elementwise_with_scalar (a : Array) (other : ℚ) (f : ℚ → ℚ → ℚ) : Array :=
  { shape := a.shape, data := a.data.map (fun x => f x other) }

/-- `Array::add_scalar`. -/
def Array.add_scalar (a : Array) (s : ℚ) : Array :=
  compute_elementwise_with_scalar a s (fun x y => x + y)

/-- `Array::sub_scalar`. -/
def Array.sub_scalar (a : Array) (s : ℚ) : Array :=
  compute_elementwise_with_scalar a s (fun x y => x - y)

/-- `Array::mul_scalar`. -/
def Array.mul_scalar (a : Array) (s : ℚ) : Array :=
  compute_elementwise_with_scalar a s (fun x y => x * y)

/-- `Array::div_scalar` (also `div_assign_scalar`). -/
def Array.div_scalar (a : Array) (s : ℚ) : Array :=
  compute_elementwise_with_scalar a s (fun x y => x / y)

/-- `Array::neg`. -/
def Array.neg (a : Array) : Array := a.map (fun x => -x)

/-- Left-pad a shape with 1s to the length of another shape.  This is how
`check_shapes_broadcast` and `get_shape_after_broadcast` in `linalg/utils.rs`
treat the shorter shape: they index the `smaller` shape shifted by the length
difference, i.e. they align both shapes at the trailing dimension and treat
the missing leading dimensions of the shorter one as 1. -/
def padShape (a b : List Nat) : List Nat :=
  List.replicate (b.length - a.length) 1 ++ a

/-- `check_shapes_broadcast` from `linalg/utils.rs`: aligned dimensions must
be equal or one of them must be 1 (the extra leading dimensions of the longer
shape are never rejected, exactly as padding with 1s never rejects). -/
def check_shapes_broadcast (shape1 shape2 : List Nat) : Bool :=
  (List.zipWith (fun a b => a == b || a == 1 || b == 1)
    (padShape shape1 shape2) (padShape shape2 shape1)).all id

/-- `get_shape_after_broadcast` from `linalg/utils.rs`: starts from the longer
shape and overwrites every aligned position with the max of the two aligned
dimensions — i.e. the pointwise max of the two 1-padded shapes. -/
def get_shape_after_broadcast (shape1 shape2 : List Nat) : Option (List Nat) :=
  if check_shapes_broadcast shape1 shape2 then
    some (List.zipWith max (padShape shape1 shape2) (padShape shape2 shape1))
  else none

/-- The trailing-dimension scan of
`Array::compute_elementwise_with_other_array_on_mem_buffer`
(`linalg/array.rs`): count, from the right, how many dimensions of the two
shapes are literally equal (stop at the first difference). -/
def countEqFromLeft : List Nat → List Nat → Nat
  | x :: xs, y :: ys => if x == y then countEqFromLeft xs ys + 1 else 0
  | _, _ => 0

/-- Number of matching trailing dimensions of two shapes. -/
def trailingDims (s1 s2 : List Nat) : Nat :=
  countEqFromLeft s1.reverse s2.reverse

/-- `get_slice_len` from `linalg/broadcast.rs`: the length of one produced
slice of an array, i.e. the product of its `trailing_dims` last dimensions
(1 when no dimensions are kept). -/
def get_slice_len (shape : List Nat) (trailing_dims : Nat) : Nat :=
  if trailing_dims == 0 then 1
  else ((shape.drop (shape.length - trailing_dims)).prod)

/-- `get_padded_broadcast_shapes` from `linalg/broadcast.rs`: drop the
trailing dimensions of both shapes and left-pad the shorter result with 1s
(the comparison uses the full lengths, as in the source's `match` on
`shape1_len.cmp(&shape2_len)`; equal lengths pad by zero). -/
def get_padded_broadcast_shapes (s1 s2 : List Nat) (trailing_dims : Nat) :
    List Nat × List Nat :=
  let s1t := s1.take (s1.length - trailing_dims)
  let s2t := s2.take (s2.length - trailing_dims)
  if s2.length ≤ s1.length then
    (s1t, List.replicate (s1.length - s2.length) 1 ++ s2t)
  else
    (List.replicate (s2.length - s1.length) 1 ++ s1t, s2t)

/-- The loop of `BroadcastIterator::compute_slice_index`
(`linalg/broadcast.rs`), walking the (already reversed) shape with `prod`
starting at the slice length; a position where the current index has run past
this array's dimension (a broadcast dimension of size 1) contributes
nothing. -/
def sliceIndexR : List Nat → List Nat → Nat → Nat
  | d :: ds, c :: cs, p => (if c < d then c * p else 0) + sliceIndexR ds cs (p * d)
  | _, _, _ => 0

/-- `BroadcastIterator::compute_slice_index` from `linalg/broadcast.rs`. -/
def compute_slice_index (shape : List Nat) (slice_len : Nat) (cur : List Nat) : Nat :=
  sliceIndexR shape.reverse cur.reverse slice_len

/-- The carry loop of `BroadcastIterator::increment_broadcast_shape_iterator`
(`linalg/broadcast.rs`) on digit lists that are least-significant first: add
one at the head; a digit that reaches its dimension is zeroed and carries,
except at the most significant position, where reaching the dimension sets
the `done` flag (and the source leaves the digit at its dimension). -/
def incCarry : List Nat → List Nat → List Nat × Bool
  | [c], [d] => ([c + 1], c + 1 == d)
  | c :: cs, d :: ds =>
    if c + 1 == d then
      let r := incCarry cs ds
      (0 :: r.1, r.2)
    else ((c + 1) :: cs, false)
  | _, _ => ([], true)

/-- `BroadcastIterator::increment_broadcast_shape_iterator` from
`linalg/broadcast.rs`: row-major increment of `current_index` over the
broadcast result shape, returning the new index and the `done` flag. -/
def increment_broadcast_shape_iterator (shape cur : List Nat) : List Nat × Bool :=
  let r := incCarry cur.reverse shape.reverse
  (r.1.reverse, r.2)

/-- The sequence of `current_index` values produced by repeatedly calling
`BroadcastIterator::next` until `done` (fuel-bounded; the callers pass the
product of the result shape, which is exactly the number of iterations). -/
def runIdx (shape : List Nat) : List Nat → Nat → List (List Nat)
  | _, 0 => []
  | cur, fuel + 1 =>
    cur ::
      (let r := increment_broadcast_shape_iterator shape cur
       if r.2 then [] else runIdx shape r.1 fuel)

/-- Write a chunk into a flat buffer at a given offset, leaving the rest of
the buffer unchanged.  This models a Rust write
`buff[off..off + chunk.len()].copy_from(chunk)` into a pre-allocated
buffer. -/
def writeChunk (buff : List ℚ) (off : Nat) (chunk : List ℚ) : List ℚ :=
  buff.take off ++ chunk ++ buff.drop (off + chunk.length)

/-- `BroadcastIterator::new` followed by draining the iterator
(`linalg/broadcast.rs`): validates `trailing_dims` against the ranks and the
non-trailing prefixes for broadcast compatibility, then produces one pair of
slice offsets per `current_index` in row-major order over the broadcast
result shape of the prefixes; an empty prefix yields exactly one pair at
offset 0 (the whole buffers).  Slice lengths are `get_slice_len` of each
shape.  Panics (here: `none`) on invalid `trailing_dims` (including the
`shape.len() - trailing_dims` underflow of the source's slicing) or
incompatible prefixes. -/
def broadcastOffsets (s1 s2 : List Nat) (trailing_dims : Nat) :
    Option (List (Nat × Nat)) :=
  if trailing_dims ≤ s1.length && trailing_dims ≤ s2.length &&
      trailing_dims ≤ max s1.length s2.length then
    let p := get_padded_broadcast_shapes s1 s2 trailing_dims
    if check_shapes_broadcast (s1.take (s1.length - trailing_dims))
        (s2.take (s2.length - trailing_dims)) then
      let res := List.zipWith max p.1 p.2
      let idxs :=
        if res.isEmpty then [([] : List Nat)]
        else runIdx res (List.replicate res.length 0) res.prod
      some (idxs.map (fun cur =>
        (compute_slice_index p.1 (get_slice_len s1 trailing_dims) cur,
         compute_slice_index p.2 (get_slice_len s2 trailing_dims) cur)))
    else none
  else none

/-- `Array::compute_elementwise_with_other_array` (and the final state of
`assign_compute_elementwise_with_other_array`) from `linalg/array.rs`:
compute the broadcast result shape, count the literally-equal trailing
dimensions, then iterate the broadcast iterator, combining each pair of
slices elementwise into the pre-allocated zero buffer chunk by chunk. -/
def compute_elementwise_with_other_array (a b : Array) (f : ℚ → ℚ → ℚ) :
    Option Array :=
  match get_shape_after_broadcast a.shape b.shape with
  | none => none
  | some shape =>
    let t := trailingDims a.shape b.shape
    let slice_len := (shape.drop (shape.length - t)).prod
    match broadcastOffsets a.shape b.shape t with
    | none => none
    | some offs =>
      let len1 := get_slice_len a.shape t
      let len2 := get_slice_len b.shape t
      let data := offs.enum.foldl
        (fun buff x =>
          writeChunk buff (slice_len * x.1)
            (List.zipWith f ((a.data.drop x.2.1).take len1)
              ((b.data.drop x.2.2).take len2)))
        (List.replicate shape.prod 0)
      some { shape := shape, data := data }

/-- `Array::add` (array-array, broadcasting). -/
def Array.add (a b : Array) : Option Array :=
  compute_elementwise_with_other_array a b (fun x y => x + y)

/-- `Array::sub` (array-array, broadcasting). -/
def Array.sub (a b : Array) : Option Array :=
  compute_elementwise_with_other_array a b (fun x y => x - y)

/-- `Array::mul` (elementwise array-array, broadcasting). -/
def Array.mul (a b : Array) : Option Array :=
  compute_elementwise_with_other_array a b (fun x y => x * y)

/-- `Array::div` (elementwise array-array, broadcasting). -/
def Array.div (a b : Array) : Option Array :=
  compute_elementwise_with_other_array a b (fun x y => x / y)

/-- `check_shapes_broadcast_matmul` + `get_shape_after_broadcast_matmul` from
`linalg/utils.rs`: both ranks must be at least 2 (the source's prefix slicing
panics below rank 2), the inner dimensions must agree, and the leading
prefixes must broadcast; the result shape is the broadcast prefix with
`[rows1, cols2]` appended. -/
def get_shape_after_broadcast_matmul (s1 s2 : List Nat) : Option (List Nat) :=
  if s1.length < 2 || s2.length < 2 then none
  else if s1.getD (s1.length - 1) 0 != s2.getD (s2.length - 2) 0 then none
  else
    match get_shape_after_broadcast (s1.take (s1.length - 2))
        (s2.take (s2.length - 2)) with
    | none => none
    | some pre => some (pre ++ [s1.getD (s1.length - 2) 0, s2.getD (s2.length - 1) 0])

/-- `general_matmul_2d_matrix_slices` from `linalg/matmul.rs`: the plain
triple loop writing `output[i * n_cols2 + j] = Σ_k data1[i * n_cols1 + k] *
data2[k * n_cols2 + j]` (the BLAS paths compute the same product). -/
def general_matmul_2d_matrix_slices (data1 : List ℚ) (n_rows1 n_cols1 : Nat)
    (data2 : List ℚ) (n_cols2 : Nat) : List ℚ :=
  (List.range n_rows1).flatMap (fun i =>
    (List.range n_cols2).map (fun j =>
      (List.range n_cols1).foldl
        (fun acc k => acc + data1.getD (i * n_cols1 + k) 0 * data2.getD (k * n_cols2 + j) 0)
        0))

/-- `Array::matmul` from `linalg/array.rs`: batched matrix product; the
broadcast iterator keeps 2 trailing dimensions and each produced pair of
2-d slices is multiplied into the output buffer chunk by chunk. -/
def Array.matmul (a b : Array) : Option Array :=
  match get_shape_after_broadcast_matmul a.shape b.shape with
  | none => none
  | some new_shape =>
    let r1 := a.shape.getD (a.shape.length - 2) 0
    let c1 := a.shape.getD (a.shape.length - 1) 0
    let c2 := b.shape.getD (b.shape.length - 1) 0
    let slice_len_output := r1 * c2
    match broadcastOffsets a.shape b.shape 2 with
    | none => none
    | some offs =>
      let len1 := get_slice_len a.shape 2
      let len2 := get_slice_len b.shape 2
      let data := offs.enum.foldl
        (fun buff x =>
          writeChunk buff (slice_len_output * x.1)
            (general_matmul_2d_matrix_slices ((a.data.drop x.2.1).take len1) r1 c1
              ((b.data.drop x.2.2).take len2) c2))
        (List.replicate new_shape.prod 0)
      some { shape := new_shape, data := data }

/-- `Array::get_transposed_shape` from `linalg/array.rs`: swap the last two
dimensions; panics (here: `none`) below rank 2. -/
def get_transposed_shape (shape : List Nat) : Option (List Nat) :=
  if shape.length < 2 then none
  else some (shape.take (shape.length - 2) ++
    [shape.getD (shape.length - 1) 0, shape.getD (shape.length - 2) 0])

/-- `transpose_2d_matrix_slices` from `linalg/utils.rs`:
`output[j * n_rows + i] = data[i * n_cols + j]`, produced row-major over
`(j, i)`. -/
def transpose_2d_matrix_slices (data : List ℚ) (n_rows n_cols : Nat) : List ℚ :=
  (List.range n_cols).flatMap (fun j =>
    (List.range n_rows).map (fun i => data.getD (i * n_cols + j) 0))

/-- `Array::transpose` (and the final state of `transpose_assign`) from
`linalg/array.rs`: transpose each trailing 2-d slice of the buffer into a
pre-allocated zero buffer. -/
def Array.transpose (a : Array) : Option Array :=
  match get_transposed_shape a.shape with
  | none => none
  | some new_shape =>
    let r := a.shape.getD (a.shape.length - 2) 0
    let c := a.shape.getD (a.shape.length - 1) 0
    let slice_len := r * c
    let num_slices := a.shape.prod / slice_len
    let data := (List.range num_slices).foldl
      (fun buff i =>
        writeChunk buff (i * slice_len)
          (transpose_2d_matrix_slices ((a.data.drop (i * slice_len)).take slice_len) r c))
      (List.replicate a.shape.prod 0)
    some { shape := new_shape, data := data }

/-- `get_shape_after_reduce` from `linalg/reduce.rs`: `None` collapses to
`[1]` (or all-1s with `keep_dims`), a given axis is set to 1 or removed;
panics (here: `none`) when the axis is out of range. -/
def get_shape_after_reduce (shape : List Nat) (axis : Option Nat) (keep_dims : Bool) :
    Option (List Nat) :=
  match axis with
  | some av =>
    if av ≥ shape.length then none
    else if keep_dims then some (shape.set av 1)
    else some (shape.eraseIdx av)
  | none =>
    if keep_dims then some (List.replicate shape.length 1) else some [1]

/-- The output loop of `reduce` (`linalg/reduce.rs`) for a given axis: one
output element per step, folding the reducer over the `dim_len` entries of
the reduced dimension, with the source's `processed_elems` / `total_slide` /
`current_row` bookkeeping (the source adds 1 before the inner loop and 1 per
inner iteration, i.e. `dim_len` in total, and advances `total_slide` when a
whole slide of `single_slide` elements has been consumed). -/
def reduceAxisLoop (data : List ℚ) (f : ℚ → ℚ → ℚ) (axis_len single_slide dim_len : Nat) :
    Nat → Nat → Nat → Nat → List ℚ
  | 0, _, _, _ => []
  | n + 1, processed, total_slide, current_row =>
    let v0 := data.getD (total_slide + current_row) 0
    let v := (List.range (dim_len - 1)).foldl
      (fun acc j => f acc (data.getD (total_slide + axis_len * (j + 1) + current_row) 0))
      v0
    let processed := processed + dim_len
    let current_row := current_row + 1
    if processed % single_slide == 0 then
      v :: reduceAxisLoop data f axis_len single_slide dim_len n processed
        (total_slide + single_slide) 0
    else
      v :: reduceAxisLoop data f axis_len single_slide dim_len n processed
        total_slide current_row

/-- `reduce` from `linalg/reduce.rs`.  With `axis = none` the whole buffer is
folded (starting from 0, as the source folds from `T::zero()`) into the
single cell of the `[1]`-shaped output. -/
def reduce (a : Array) (f : ℚ → ℚ → ℚ) (axis : Option Nat) (keep_dims : Bool) :
    Option Array :=
  match get_shape_after_reduce a.shape axis keep_dims with
  | none => none
  | some new_shape =>
    match axis with
    | some av =>
      let axis_len := (a.shape.drop (av + 1)).prod
      let single_slide := (a.shape.drop av).prod
      let dim_len := a.shape.getD av 0
      some { shape := new_shape,
             data := reduceAxisLoop a.data f axis_len single_slide dim_len
               new_shape.prod 0 0 0 }
    | none => some { shape := new_shape, data := [a.data.foldl f 0] }

/-- `reduce_sum` from `linalg/reduce.rs`. -/
def reduce_sum (a : Array) (axis : Option Nat) (keep_dims : Bool) : Option Array :=
  reduce a (fun x y => x + y) axis keep_dims

/-- `reduce_mean` from `linalg/reduce.rs`: `reduce_sum` followed by
`div_assign_scalar` by the reduced dimension's length (axis given) or the
total element count (`axis = None`). -/
def reduce_mean (a : Array) (axis : Option Nat) (keep_dims : Bool) : Option Array :=
  match reduce_sum a axis keep_dims with
  | none => none
  | some s =>
    let count : Nat :=
      match axis with
      | some av => a.shape.getD av 0
      | none => a.data.length
    some (s.div_scalar (count : ℚ))

/-! ## The computation graph (`graph/mod.rs`, `graph/arithmetic.rs`,
`graph/reduce.rs`)

Nodes live in an arena list; a node's index models its address
(`ref_as_usize`).  A `Variable` holds an index into the shared mutable store
(its `Rc<RefCell<Array>>` buffer); the store is threaded through every
computation so that writes, were there any, would be visible.  The per-call
memoization cache maps a node address to the value `compute` returns for it;
since `compute` is pure in its inputs, `value` always returns exactly
`compute`'s result, and we elide the cache. -/

/-- The graph-node variants (`Variable`, `Placeholder` from `graph/mod.rs`;
the operator structs from `graph/arithmetic.rs` and `graph/reduce.rs`).
Inputs are arena indices; scalars are the ops' scalar constants. -/
inductive Node where
  | Variable (vid : Nat)
  | Placeholder (id : String) (shape : List Nat)
  | AddOp (i1 i2 : Nat)
  | SubOp (i1 i2 : Nat)
  | MulOp (i1 i2 : Nat)
  | DivOp (i1 i2 : Nat)
  | AddScalarOp (input : Nat) (scalar : ℚ)
  | SubScalarOp (input : Nat) (scalar : ℚ)
  | MulScalarOp (input : Nat) (scalar : ℚ)
  | DivScalarOp (input : Nat) (scalar : ℚ)
  | MatMulOp (i1 i2 : Nat)
  | NegOp (input : Nat)
  | ReduceSumOp (input : Nat) (axis : Option Nat) (keep_dims : Bool)
  | ReduceMeanOp (input : Nat) (axis : Option Nat) (keep_dims : Bool)
deriving DecidableEq

/-- The shared mutable `Variable` buffers (each `Variable` node's
`Rc<RefCell<Array>>`, indexed by `vid`). -/
abbrev Store := List Array

/-- The feed mapping (placeholder id → supplied array), optional as in the
source. -/
abbrev Feed := List (String × Array)

/-- `GraphOp::get_inputs` (per-variant; source nodes return `None`, i.e. no
inputs, which callers turn into the empty list with `unwrap_or_default`). -/
def Node.get_inputs : Node → List Nat
  | .Variable _ => []
  | .Placeholder _ _ => []
  | .AddOp a b => [a, b]
  | .SubOp a b => [a, b]
  | .MulOp a b => [a, b]
  | .DivOp a b => [a, b]
  | .MatMulOp a b => [a, b]
  | .AddScalarOp a _ => [a]
  | .SubScalarOp a _ => [a]
  | .MulScalarOp a _ => [a]
  | .DivScalarOp a _ => [a]
  | .NegOp a => [a]
  | .ReduceSumOp a _ _ => [a]
  | .ReduceMeanOp a _ _ => [a]

/-- Inputs of the node at arena index `i` (missing index: no inputs). -/
def get_inputs (g : List Node) (i : Nat) : List Nat :=
  ((g.get? i).map Node.get_inputs).getD []

/-- `GraphOp::compute` / `value` (fuel-bounded recursion over the DAG;
`none` models both a panic and fuel exhaustion).  Each case evaluates its
inputs left to right, threading the variable store, and applies the
corresponding array operation, exactly as the `compute` impls do. -/
def compute : Nat → List Node → Option Feed → Nat → Store → Option (Array × Store)
  | 0, _, _, _, _ => none
  | fuel + 1, g, feed, i, store =>
    match g.get? i with
    | none => none
    | some n =>
      match n with
      | .Variable vid =>
        match store.get? vid with
        | none => none
        | some a => some (a, store)
      | .Placeholder id shape =>
        match feed with
        | none => none
        | some fd =>
          match fd.find? (fun p => p.1 == id) with
          | none => none
          | some p => if p.2.shape == shape then some (p.2, store) else none
      | .AddOp i1 i2 =>
        match compute fuel g feed i1 store with
        | none => none
        | some (v1, s1) =>
          match compute fuel g feed i2 s1 with
          | none => none
          | some (v2, s2) =>
            match Array.add v1 v2 with
            | none => none
            | some v => some (v, s2)
      | .SubOp i1 i2 =>
        match compute fuel g feed i1 store with
        | none => none
        | some (v1, s1) =>
          match compute fuel g feed i2 s1 with
          | none => none
          | some (v2, s2) =>
            match Array.sub v1 v2 with
            | none => none
            | some v => some (v, s2)
      | .MulOp i1 i2 =>
        match compute fuel g feed i1 store with
        | none => none
        | some (v1, s1) =>
          match compute fuel g feed i2 s1 with
          | none => none
          | some (v2, s2) =>
            match Array.mul v1 v2 with
            | none => none
            | some v => some (v, s2)
      | .DivOp i1 i2 =>
        match compute fuel g feed i1 store with
        | none => none
        | some (v1, s1) =>
          match compute fuel g feed i2 s1 with
          | none => none
          | some (v2, s2) =>
            match Array.div v1 v2 with
            | none => none
            | some v => some (v, s2)
      | .MatMulOp i1 i2 =>
        match compute fuel g feed i1 store with
        | none => none
        | some (v1, s1) =>
          match compute fuel g feed i2 s1 with
          | none => none
          | some (v2, s2) =>
            match Array.matmul v1 v2 with
            | none => none
            | some v => some (v, s2)
      | .AddScalarOp a s =>
        match compute fuel g feed a store with
        | none => none
        | some (v, s1) => some (v.add_scalar s, s1)
      | .SubScalarOp a s =>
        match compute fuel g feed a store with
        | none => none
        | some (v, s1) => some (v.sub_scalar s, s1)
      | .MulScalarOp a s =>
        match compute fuel g feed a store with
        | none => none
        | some (v, s1) => some (v.mul_scalar s, s1)
      | .DivScalarOp a s =>
        match compute fuel g feed a store with
        | none => none
        | some (v, s1) => some (v.div_scalar s, s1)
      | .NegOp a =>
        match compute fuel g feed a store with
        | none => none
        | some (v, s1) => some (v.neg, s1)
      | .ReduceSumOp a axis kd =>
        match compute fuel g feed a store with
        | none => none
        | some (v, s1) =>
          match reduce_sum v axis kd with
          | none => none
          | some r => some (r, s1)
      | .ReduceMeanOp a axis kd =>
        match compute fuel g feed a store with
        | none => none
        | some (v, s1) =>
          match reduce_mean v axis kd with
          | none => none
          | some r => some (r, s1)

/-- `GraphOp::compute_accum_grad` (per-variant, from `graph/mod.rs`,
`graph/arithmetic.rs`, `graph/reduce.rs`): the local gradient contribution
the node at index `i` routes to the input `dep`, given the upstream gradient
`grad`.  The inner `Option` is the source's return value (`None` when `dep`
is not an input); the outer `Option` models panics/fuel.  The `dep == i1`
tests model the source's `ref_as_usize` pointer comparisons, so with
duplicated inputs the first branch wins, as in the source.  Note two
faithfully reproduced quirks of the source: `SubOp` and `SubScalarOp` use
`-T::one()` in **both** branches (the minuend branch too, and with the other
input's shape), and `ReduceMeanOp` divides by `self.axis.unwrap_or(len)`,
i.e. by the axis *index* when an axis is given. -/
def compute_accum_grad (fuel : Nat) (g : List Node) (feed : Option Feed)
    (i dep : Nat) (grad : Array) (store : Store) : Option (Option Array × Store) :=
  match g.get? i with
  | none => none
  | some n =>
    match n with
    | .Variable _ => some (none, store)
    | .Placeholder _ _ => some (none, store)
    | .AddOp i1 i2 =>
      if dep == i1 then
        match compute fuel g feed i1 store with
        | none => none
        | some (v1, s1) =>
          match Array.new 1 v1.shape with
          | none => none
          | some ones =>
            match Array.mul grad ones with
            | none => none
            | some r => some (some r, s1)
      else if dep == i2 then
        match compute fuel g feed i2 store with
        | none => none
        | some (v2, s1) =>
          match Array.new 1 v2.shape with
          | none => none
          | some ones =>
            match Array.mul grad ones with
            | none => none
            | some r => some (some r, s1)
      else some (none, store)
    | .SubOp i1 i2 =>
      if dep == i1 then
        match compute fuel g feed i2 store with
        | none => none
        | some (v2, s1) =>
          match Array.new (-1) v2.shape with
          | none => none
          | some m =>
            match Array.mul grad m with
            | none => none
            | some r => some (some r, s1)
      else if dep == i2 then
        match compute fuel g feed i1 store with
        | none => none
        | some (v1, s1) =>
          match Array.new (-1) v1.shape with
          | none => none
          | some m =>
            match Array.mul grad m with
            | none => none
            | some r => some (some r, s1)
      else some (none, store)
    | .MulOp i1 i2 =>
      if dep == i1 then
        match compute fuel g feed i2 store with
        | none => none
        | some (v2, s1) =>
          match Array.mul grad v2 with
          | none => none
          | some r => some (some r, s1)
      else if dep == i2 then
        match compute fuel g feed i1 store with
        | none => none
        | some (v1, s1) =>
          match Array.mul grad v1 with
          | none => none
          | some r => some (some r, s1)
      else some (none, store)
    | .DivOp i1 i2 =>
      if dep == i1 then
        match compute fuel g feed i1 store with
        | none => none
        | some (v1, s1) =>
          match compute fuel g feed i2 s1 with
          | none => none
          | some (v2, s2) =>
            match Array.new 1 v1.shape with
            | none => none
            | some ones =>
              match Array.div ones v2 with
              | none => none
              | some q =>
                match Array.mul grad q with
                | none => none
                | some r => some (some r, s2)
      else if dep == i2 then
        match compute fuel g feed i1 store with
        | none => none
        | some (v1, s1) =>
          match compute fuel g feed i2 s1 with
          | none => none
          | some (v2, s2) =>
            match Array.new (-1) v1.shape with
            | none => none
            | some minus_ones =>
              match Array.mul v2 v2 with
              | none => none
              | some den =>
                match Array.div minus_ones den with
                | none => none
                | some q =>
                  match Array.mul grad q with
                  | none => none
                  | some r => some (some r, s2)
      else some (none, store)
    | .AddScalarOp a _ =>
      if dep == a then
        match compute fuel g feed a store with
        | none => none
        | some (v, s1) =>
          match Array.new 1 v.shape with
          | none => none
          | some ones =>
            match Array.mul grad ones with
            | none => none
            | some r => some (some r, s1)
      else some (none, store)
    | .SubScalarOp a _ =>
      if dep == a then
        match compute fuel g feed a store with
        | none => none
        | some (v, s1) =>
          match Array.new (-1) v.shape with
          | none => none
          | some m =>
            match Array.mul grad m with
            | none => none
            | some r => some (some r, s1)
      else some (none, store)
    | .MulScalarOp a sc =>
      if dep == a then
        match compute fuel g feed a store with
        | none => none
        | some (v, s1) =>
          match Array.new sc v.shape with
          | none => none
          | some m =>
            match Array.mul grad m with
            | none => none
            | some r => some (some r, s1)
      else some (none, store)
    | .DivScalarOp a sc =>
      if dep == a then
        match compute fuel g feed a store with
        | none => none
        | some (v, s1) =>
          match Array.new (1 / sc) v.shape with
          | none => none
          | some m =>
            match Array.mul grad m with
            | none => none
            | some r => some (some r, s1)
      else some (none, store)
    | .MatMulOp i1 i2 =>
      if dep == i1 then
        match compute fuel g feed i2 store with
        | none => none
        | some (v2, s1) =>
          match v2.transpose with
          | none => none
          | some t =>
            match Array.matmul grad t with
            | none => none
            | some r => some (some r, s1)
      else if dep == i2 then
        match compute fuel g feed i1 store with
        | none => none
        | some (v1, s1) =>
          match v1.transpose with
          | none => none
          | some t =>
            match Array.matmul t grad with
            | none => none
            | some r => some (some r, s1)
      else some (none, store)
    | .NegOp a =>
      if dep == a then
        match compute fuel g feed a store with
        | none => none
        | some (v, s1) =>
          match Array.new (-1) v.shape with
          | none => none
          | some m =>
            match Array.mul grad m with
            | none => none
            | some r => some (some r, s1)
      else some (none, store)
    | .ReduceSumOp a _ _ =>
      if dep == a then
        match compute fuel g feed a store with
        | none => none
        | some (v, s1) =>
          match Array.new 1 v.shape with
          | none => none
          | some ones =>
            match Array.mul grad ones with
            | none => none
            | some r => some (some r, s1)
      else some (none, store)
    | .ReduceMeanOp a axis _ =>
      if dep == a then
        match compute fuel g feed a store with
        | none => none
        | some (v, s1) =>
          let dim_size := axis.getD v.data.length
          match Array.new (1 / (dim_size : ℚ)) v.shape with
          | none => none
          | some m =>
            match Array.mul grad m with
            | none => none
            | some r => some (some r, s1)
      else some (none, store)

/-- The gradient accumulation map of `GraphOp::grad` (`graph/mod.rs`):
node address → accumulated gradient.  The `none` key is the address of the
synthetic `WrapperOp` around the root. -/
abbrev AccumMap := List (Option Nat × Array)

/-- Map lookup (`accumm_grad_map[&key]` / `.get`). -/
def lookupA (m : AccumMap) (k : Option Nat) : Option Array :=
  (m.find? (fun p => p.1 == k)).map (fun p => p.2)

/-- In-place update of an existing entry (`*accumm_grad += &grad`). -/
def updateA (m : AccumMap) (k : Option Nat) (v : Array) : AccumMap :=
  m.map (fun p => if p.1 == k then (k, v) else p)

/-- The accumulation update of one loop iteration of `GraphOp::grad`: when
the parent returned a contribution for the child `c`, add it into `c`'s entry
(`*accumm_grad += &grad`, i.e. broadcasting array addition, which can fail)
or create the entry. -/
def accumStep (accum : AccumMap) (c : Nat) (contribOpt : Option Array) :
    Option AccumMap :=
  match contribOpt with
  | none => some accum
  | some contrib =>
    match lookupA accum (some c) with
    | none => some ((some c, contrib) :: accum)
    | some old =>
      match Array.add old contrib with
      | none => none
      | some merged => some (updateA accum (some c) merged)

/-- The stack update of one loop iteration of `GraphOp::grad`: unless the
popped child `c` is the target or has no inputs, push `(grandchild, c)` for
each of its inputs; `ord c` selects the left/right order among the pushed
siblings (the source uses `get_inputs` order, `ord = fun _ => false`), and
pushing makes the last pushed pair the next popped. -/
def pushChildren (g : List Node) (target : Nat) (ord : Nat → Bool) (c : Nat)
    (stack : List (Nat × Option Nat)) : List (Nat × Option Nat) :=
  let children := get_inputs g c
  if c != target && !children.isEmpty then
    ((if ord c then children.reverse else children).reverse.map
      (fun ch => (ch, some c))) ++ stack
  else stack

/-- The `while let Some((current_node, current_parrent)) = stack.pop()` loop
of `GraphOp::grad` (`graph/mod.rs`), fuel-bounded.  The stack holds
`(child, parent-address)` pairs, with the key `none` standing for the
`WrapperOp` around the root (whose `compute_accumm_grad` delegates to the
root's).  A popped pair asks the parent for the contribution it routes to the
child, using the gradient accumulated at the parent *so far*
(`accumm_grad_map[&parent]`, a panic — `none` — if absent), folds it into the
accumulation map with `accumStep`, and pushes the child's inputs with
`pushChildren`. -/
def gradLoop (fuelC : Nat) (g : List Node) (feed : Option Feed) (root target : Nat)
    (ord : Nat → Bool) :
    Nat → List (Nat × Option Nat) → AccumMap → Store → Option (AccumMap × Store)
  | _, [], accum, store => some (accum, store)
  | 0, _ :: _, _, _ => none
  | fuel + 1, (c, pk) :: stack, accum, store =>
    match lookupA accum pk with
    | none => none
    | some pgrad =>
      match compute_accum_grad fuelC g feed (pk.getD root) c pgrad store with
      | none => none
      | some (contribOpt, store') =>
        match accumStep accum c contribOpt with
        | none => none
        | some accum' =>
          gradLoop fuelC g feed root target ord fuel
            (pushChildren g target ord c stack) accum' store'

/-- `GraphOp::grad` (`graph/mod.rs`): evaluate the root to seed an all-ones
gradient of its shape; return it immediately for the self-gradient; otherwise
seed the accumulation map at the wrapper, push the root's inputs paired with
the wrapper, run the traversal, and finally remove and return the target's
entry (`none` when the target was never reached).  The outer `Option` models
panics/fuel, the inner one the source's `Option<Array>` result. -/
def grad (g : List Node) (root target : Nat) (feed : Option Feed) (store : Store)
    (fuelC fuelL : Nat) (ord : Nat → Bool) : Option (Option Array × Store) :=
  match compute fuelC g feed root store with
  | none => none
  | some (rootVal, store1) =>
    match Array.new 1 rootVal.shape with
    | none => none
    | some seed =>
      if root == target then some (some seed, store1)
      else
        let accum : AccumMap := [(none, seed)]
        let children := get_inputs g root
        let stack := ((if ord root then children.reverse else children).reverse.map
          (fun ch => (ch, (none : Option Nat))))
        match gradLoop fuelC g feed root target ord fuelL stack accum store1 with
        | none => none
        | some (m, store2) => some (lookupA m (some target), store2)

/-- `GraphOp::eval` / `Tensor::eval` (`graph/mod.rs`, `tensor/mod.rs`): a
fresh cache and a plain `value` call. -/
def eval (g : List Node) (i : Nat) (feed : Option Feed) (store : Store) (fuel : Nat) :
    Option (Array × Store) :=
  compute fuel g feed i store

/-- `Tensor::assign` (`tensor/mod.rs`): overwrite the variable's shared
buffer with a copy of the new value. -/
def Tensor.assign (store : Store) (vid : Nat) (new_value : Array) : Store :=
  store.set vid new_value

/-- `Tensor::assign_add` (`tensor/mod.rs`): `*buffer += value`, i.e.
broadcasting array addition into the shared buffer. -/
def Tensor.assign_add (store : Store) (vid : Nat) (value : Array) : Option Store :=
  match store.get? vid with
  | none => none
  | some cur =>
    match Array.add cur value with
    | none => none
    | some r => some (store.set vid r)

/-- Reachability in the node arena: `Reachable g i j` holds when node `j` can
be reached from node `i` by repeatedly following `get_inputs` edges (the
spec's "path in the DAG"). -/
inductive Reachable (g : List Node) : Nat → Nat → Prop
  | refl (i : Nat) : Reachable g i i
  | step {i j k : Nat} : Reachable g i j → k ∈ get_inputs g j → Reachable g i k

/-- The Array invariant of spec §3: all dimensions positive and
`data.len() == product(shape)`. -/
def Array.wellFormed (a : Array) : Prop :=
  (∀ d ∈ a.shape, 0 < d) ∧ a.data.length = a.shape.prod

/-- Modelled from the spec: the broadcast-mapped index of an input array for
an output multi-index (spec §3 and §8) — align the shapes at the trailing
dimension (drop the output index's extra leading coordinates) and send every
coordinate whose dimension in this array is 1 to 0 (the virtual
replication). -/
def specBroadcastIndex (shape : List Nat) (i : List Nat) : List Nat :=
  List.zipWith (fun d c => if d = 1 then 0 else c) shape (i.drop (i.length - shape.length))

/-- Mixed-radix un-flatten, least-significant digit first: the multi-index
(over the reversed shape) whose `flatR` value is `k`. -/
def unflatR : List Nat → Nat → List Nat
  | [], _ => []
  | d :: ds, k => k % d :: unflatR ds (k / d)

/-- Pointwise in-range predicate for digit lists (least-significant first)
against a dimension list. -/
def InRangeR : List Nat → List Nat → Prop
  | [], [] => True
  | c :: cs, d :: ds => c < d ∧ InRangeR cs ds
  | _, _ => False

/-- The clamped mixed-radix flatten computed by `compute_slice_index`: a
digit that has run past this array's dimension contributes nothing. -/
def clampFlatR : List Nat → List Nat → Nat
  | d :: ds, c :: cs => (if c < d then c else 0) + d * clampFlatR ds cs
  | _, _ => 0

/-- Pointwise precondition under which `compute_slice_index`'s clamping
agrees with the spec's broadcast index mapping: every dimension is either a
broadcast dimension of size 1 or the digit is in range. -/
def ClampOk : List Nat → List Nat → Prop
  | [], [] => True
  | d :: ds, c :: cs => (d = 1 ∨ c < d) ∧ ClampOk ds cs
  | _, _ => False


/-! ## Claims -/

/-- Claim C1 (code bug): the claim says a ReduceMean node routes to its input
the upstream gradient broadcast back to the input's shape and scaled by
`1/count`, with `count` the reduced axis's dimension length when an axis is
given.  The source computes `dim_size = self.axis.unwrap_or(len)` — the axis
*index*, not the dimension length.  At input shape `[3, 2]`, `axis = Some 1`,
`keep_dims = true`, upstream gradient all-ones of shape `[3, 1]`: the routed
contribution is all ones (scale `1/1`), not all halves (scale `1/2`) as the
claim requires. -/
theorem C1_reduce_mean_grad_divides_by_axis_index :
    compute_accum_grad 10 [Node.Variable 0, Node.ReduceMeanOp 0 (some 1) true] none 1 0
        { shape := [3, 1], data := [1, 1, 1] }
        [{ shape := [3, 2], data := [1, 1, 1, 1, 1, 1] }] =
      some (some { shape := [3, 2], data := [1, 1, 1, 1, 1, 1] },
        [{ shape := [3, 2], data := [1, 1, 1, 1, 1, 1] }]) ∧
    ({ shape := [3, 2], data := [1, 1, 1, 1, 1, 1] } : Array) ≠
      { shape := [3, 2], data := [1/2, 1/2, 1/2, 1/2, 1/2, 1/2] } := by
  refine ⟨by with_unfolding_all rfl, fun h => ?_⟩
  injection h with h1 h2
  injection h2 with h3 _
  norm_num at h3

/-- Claim C2 (code bug): the claim says the gradient contribution routed to
the minuend `x` of `z = x - y` (and of `z = x - s`) is `g·1`.  The source's
`SubOp::compute_accum_grad` and `SubScalarOp::compute_accum_grad` multiply
`grad` by an array filled with `-T::one()` in the minuend branch as well
(for `SubOp` even shaped by the *subtrahend's* value), so the routed
contribution is `-g`, not `g`: at `x = [1]`, `y = [2]`, upstream gradient
`[1]`, both nodes route `[-1]` to `x`. -/
theorem C2_sub_minuend_grad_negated :
    compute_accum_grad 10 [Node.Variable 0, Node.Variable 1, Node.SubOp 0 1] none 2 0
        { shape := [1], data := [1] }
        [{ shape := [1], data := [1] }, { shape := [1], data := [2] }] =
      some (some { shape := [1], data := [-1] },
        [{ shape := [1], data := [1] }, { shape := [1], data := [2] }]) ∧
    compute_accum_grad 10 [Node.Variable 0, Node.SubScalarOp 0 5] none 1 0
        { shape := [1], data := [1] } [{ shape := [1], data := [1] }] =
      some (some { shape := [1], data := [-1] }, [{ shape := [1], data := [1] }]) ∧
    ({ shape := [1], data := [-1] } : Array) ≠ { shape := [1], data := [1] } := by
  refine ⟨by with_unfolding_all rfl, by with_unfolding_all rfl, fun h => ?_⟩
  injection h with h1 h2
  injection h2 with h3 _
  norm_num at h3

/-- Claim C3, counterexample: in the fan-out scenario `a = Variable([1])`,
`e = (a + a) * a` (arena: `a` at 0, `AddOp a a` at 1, `MulOp add a` at 2),
`e.grad(a)` evaluates to `[4]`, not `[3]` as the claim states — the value
the claim calls "the analytically correct sum of all three paths'
contributions" is `d(2a²)/da = 4a = 4` at `a = 1` (the three contributions
are `2`, `1` and `1`). -/
theorem C3_fanout_grad_counterexample :
    grad [Node.Variable 0, Node.AddOp 0 0, Node.MulOp 1 0] 2 0 none
        [{ shape := [1], data := [1] }] 10 50 (fun _ => false) =
      some (some { shape := [1], data := [4] }, [{ shape := [1], data := [1] }]) ∧
    ({ shape := [1], data := [4] } : Array) ≠ { shape := [1], data := [3] } := by
  refine ⟨by with_unfolding_all rfl, fun h => ?_⟩
  injection h with h1 h2
  injection h2 with h3 _
  norm_num at h3

/-- Claim C3, amended: in the fan-out scenario `a = Variable([1])`,
`e = (a + a) * a`, `e.grad(a)` returns the analytically correct sum of all
three paths' gradient contributions (`2` via Mul's right input and `1` via
each of Add's two inputs), equal to `4` at value 1 — reaching the same node
via multiple parents accumulates rather than overwrites. -/
theorem C3_fanout_grad_accumulates :
    grad [Node.Variable 0, Node.AddOp 0 0, Node.MulOp 1 0] 2 0 none
        [{ shape := [1], data := [1] }] 10 50 (fun _ => false) =
      some (some { shape := [1], data := [4] }, [{ shape := [1], data := [1] }]) := by
  with_unfolding_all rfl

/-- Claim C4 (code bug): the claim says the result of `grad` does not depend
on the pop order, in particular not on the left/right order among siblings.
Take `x = Variable([1])` (index 0), `S = AddScalarOp(x, 0)` (index 1),
`P = MulScalarOp(S, 2)` (index 2), `R = AddOp(P, S)` (index 3), and
differentiate `R` with respect to `x` (true gradient: `3`).  With the
source's sibling order the traversal returns `[4]`; pushing the two siblings
of `R` in the opposite order returns `[5]`: a parent's partially accumulated
gradient is consumed before all of its contributions have arrived, so the
order does matter (and the true value `3` is not produced by either
order). -/
theorem C4_grad_depends_on_pop_order :
    grad [Node.Variable 0, Node.AddScalarOp 0 0, Node.MulScalarOp 1 2, Node.AddOp 2 1]
        3 0 none [{ shape := [1], data := [1] }] 10 50 (fun _ => false) =
      some (some { shape := [1], data := [4] }, [{ shape := [1], data := [1] }]) ∧
    grad [Node.Variable 0, Node.AddScalarOp 0 0, Node.MulScalarOp 1 2, Node.AddOp 2 1]
        3 0 none [{ shape := [1], data := [1] }] 10 50 (fun n => n == 3) =
      some (some { shape := [1], data := [5] }, [{ shape := [1], data := [1] }]) ∧
    ({ shape := [1], data := [4] } : Array) ≠ { shape := [1], data := [5] } := by
  refine ⟨by with_unfolding_all rfl, by with_unfolding_all rfl, fun h => ?_⟩
  injection h with h1 h2
  injection h2 with h3 _
  norm_num at h3

/-- Claim C6, counterexample: the claim's "for any node N" fails for a node
whose forward evaluation fails, because `grad` evaluates the root (to obtain
the shape of the all-ones seed) *before* the self-gradient check: for
`N = Placeholder("x", [2])` with no feed mapping, `grad(N, N)` panics
(modelled as `none`) instead of returning `Some(ones([2]))`. -/
theorem C6_self_gradient_counterexample :
    grad [Node.Placeholder "x" [2]] 0 0 none [] 5 5 (fun _ => false) = none := by
  with_unfolding_all rfl

/-- Claim C6, amended: for any node N whose forward evaluation under the
given feed succeeds (with value `v`), `grad(N, N)` returns `Some` of the
all-ones array of N's shape (the shape of `v`). -/
theorem C6_self_gradient (g : List Node) (root : Nat) (feed : Option Feed)
    (store : Store) (fuelC fuelL : Nat) (ord : Nat → Bool) (v : Array) (s' : Store)
    (h : compute fuelC g feed root store = some (v, s'))
    (o : Array) (ho : Array.new 1 v.shape = some o) :
    grad g root root feed store fuelC fuelL ord = some (some o, s') := by
  simp [grad, h, ho]

/-- Witness for C6: a `[2]`-shaped variable's self-gradient is the all-ones
`[2]` array. -/
theorem C6_self_gradient_witness :
    grad [Node.Variable 0] 0 0 none [{ shape := [2], data := [3, 4] }] 1 1
        (fun _ => false) =
      some (some { shape := [2], data := [1, 1] }, [{ shape := [2], data := [3, 4] }]) :=
  C6_self_gradient [Node.Variable 0] 0 none [{ shape := [2], data := [3, 4] }] 1 1
    (fun _ => false) { shape := [2], data := [3, 4] } [{ shape := [2], data := [3, 4] }]
    (by with_unfolding_all rfl) { shape := [2], data := [1, 1] }
    (by with_unfolding_all rfl)

/-- Claim C8: evaluating a Placeholder node fails when the feed mapping is
absent, when its id is absent from the feed mapping, and when the supplied
array's shape differs from the declared shape; with a correctly-shaped entry
present, `compute` returns the supplied array (and leaves the store
untouched). -/
theorem C8_placeholder_compute (g : List Node) (i : Nat) (id : String) (sh : List Nat)
    (hg : g.get? i = some (Node.Placeholder id sh)) (fuel : Nat) (store : Store) :
    compute (fuel + 1) g none i store = none ∧
    (∀ fd : Feed, fd.find? (fun q => q.1 == id) = none →
      compute (fuel + 1) g (some fd) i store = none) ∧
    (∀ (fd : Feed) (p : String × Array), fd.find? (fun q => q.1 == id) = some p →
      p.2.shape ≠ sh → compute (fuel + 1) g (some fd) i store = none) ∧
    (∀ (fd : Feed) (p : String × Array), fd.find? (fun q => q.1 == id) = some p →
      p.2.shape = sh → compute (fuel + 1) g (some fd) i store = some (p.2, store)) := by
  have hg' : g[i]? = some (Node.Placeholder id sh) := by
    rw [← List.get?_eq_getElem?]; exact hg
  refine ⟨?_, ?_, ?_, ?_⟩
  · simp [compute, hg']
  · intro fd hfd
    simp [compute, hg', hfd]
  · intro fd p hfd hsh
    simp [compute, hg', hfd, hsh]
  · intro fd p hfd hsh
    simp [compute, hg', hfd, hsh]

/-- Witness for C8: a `[2]`-declared placeholder fails without a feed and
evaluates to the supplied `[2]` array with one. -/
theorem C8_placeholder_compute_witness :
    compute 1 [Node.Placeholder "x" [2]] none 0 [] = none ∧
    compute 1 [Node.Placeholder "x" [2]]
        (some [("x", { shape := [2], data := [7, 8] })]) 0 [] =
      some ({ shape := [2], data := [7, 8] }, []) := by
  have h := C8_placeholder_compute [Node.Placeholder "x" [2]] 0 "x" [2] rfl 0 []
  exact ⟨h.1, h.2.2.2 [("x", { shape := [2], data := [7, 8] })]
    ("x", { shape := [2], data := [7, 8] }) rfl rfl⟩




/-- Frame lemma: `compute` threads the variable store through every case
unchanged — forward evaluation only reads (clones) `Variable` buffers. -/
theorem compute_preserves_store : ∀ (fuel : Nat) (g : List Node) (feed : Option Feed)
    (i : Nat) (store : Store) (v : Array) (s' : Store),
    compute fuel g feed i store = some (v, s') → s' = store := by
  intro fuel
  induction fuel with
  | zero =>
    intro g feed i store v s' h
    exact Option.noConfusion h
  | succ n ih =>
    intro g feed i store v s' h
    unfold compute at h
    repeat' split at h
    all_goals (try exact Option.noConfusion h)
    all_goals (cases h; solve_by_elim [Eq.trans])

/-- Frame lemma: `compute_accum_grad` leaves the variable store unchanged. -/
theorem cag_preserves_store : ∀ (fuel : Nat) (g : List Node) (feed : Option Feed)
    (i dep : Nat) (grad : Array) (store : Store) (r : Option Array) (s' : Store),
    compute_accum_grad fuel g feed i dep grad store = some (r, s') → s' = store := by
  intro fuel g feed i dep gr store r s' h
  unfold compute_accum_grad at h
  dsimp only at h
  repeat' split at h
  all_goals (try exact Option.noConfusion h)
  all_goals (cases h; solve_by_elim [Eq.trans, compute_preserves_store])

/-- Frame lemma: the gradient traversal loop leaves the variable store
unchanged. -/
theorem gradLoop_preserves_store : ∀ (fuelC : Nat) (g : List Node) (feed : Option Feed)
    (root target : Nat) (ord : Nat → Bool) (fuel : Nat) (stack : List (Nat × Option Nat))
    (accum : AccumMap) (store : Store) (m : AccumMap) (s' : Store),
    gradLoop fuelC g feed root target ord fuel stack accum store = some (m, s') →
    s' = store := by
  intro fuelC g feed root target ord fuel
  induction fuel with
  | zero =>
    intro stack accum store m s' h
    cases stack with
    | nil => unfold gradLoop at h; cases h; rfl
    | cons p rest => exact Option.noConfusion h
  | succ n ih =>
    intro stack accum store m s' h
    cases stack with
    | nil => unfold gradLoop at h; cases h; rfl
    | cons p rest =>
      obtain ⟨c, pk⟩ := p
      unfold gradLoop at h
      repeat' split at h
      all_goals (try exact Option.noConfusion h)
      all_goals (solve_by_elim [Eq.trans, cag_preserves_store])

/-- Frame lemma: `grad` leaves the variable store unchanged. -/
theorem grad_preserves_store : ∀ (g : List Node) (root target : Nat) (feed : Option Feed)
    (store : Store) (fuelC fuelL : Nat) (ord : Nat → Bool) (r : Option Array) (s' : Store),
    grad g root target feed store fuelC fuelL ord = some (r, s') → s' = store := by
  intro g root target feed store fuelC fuelL ord r s' h
  unfold grad at h
  dsimp only at h
  repeat' split at h
  all_goals (try exact Option.noConfusion h)
  all_goals (cases h; solve_by_elim [Eq.trans, compute_preserves_store, gradLoop_preserves_store])



/-- Lookup misses when no entry has the key. -/
theorem lookupA_eq_none_of_keys (m : AccumMap) (k : Option Nat)
    (h : ∀ q ∈ m, q.1 ≠ k) : lookupA m k = none := by
  unfold lookupA
  rw [List.find?_eq_none.mpr]
  · rfl
  · intro q hq
    simp [h q hq]

/-- Updating an entry in place introduces no new keys. -/
theorem mem_updateA (m : AccumMap) (k : Option Nat) (v : Array) (q : Option Nat × Array)
    (h : q ∈ updateA m k v) : q.1 = k ∨ ∃ p ∈ m, q.1 = p.1 := by
  unfold updateA at h
  obtain ⟨p, hp, hq⟩ := List.mem_map.mp h
  by_cases hc : (p.1 == k) = true
  · left
    rw [if_pos hc] at hq
    rw [← hq]
  · right
    exact ⟨p, hp, by rw [if_neg hc] at hq; rw [← hq]⟩

/-- One accumulation step only adds the popped child's key. -/
theorem accumStep_keys (accum : AccumMap) (c : Nat) (contribOpt : Option Array)
    (accum' : AccumMap) (h : accumStep accum c contribOpt = some accum')
    (q : Option Nat × Array) (hq : q ∈ accum') :
    q.1 = some c ∨ ∃ p ∈ accum, q.1 = p.1 := by
  unfold accumStep at h
  repeat' split at h
  · cases h; exact Or.inr ⟨q, hq, rfl⟩
  · cases h
    rcases List.mem_cons.mp hq with hq | hq
    · left; rw [hq]
    · exact Or.inr ⟨q, hq, rfl⟩
  · exact Option.noConfusion h
  · cases h; exact mem_updateA accum (some c) _ q hq

/-- Every pair pushed by `pushChildren` is an input edge of the popped child
or was already on the stack. -/
theorem mem_pushChildren (g : List Node) (target : Nat) (ord : Nat → Bool) (c : Nat)
    (stack : List (Nat × Option Nat)) (p : Nat × Option Nat)
    (hp : p ∈ pushChildren g target ord c stack) :
    (∃ ch ∈ get_inputs g c, p = (ch, some c)) ∨ p ∈ stack := by
  unfold pushChildren at hp
  dsimp only at hp
  split at hp
  · rcases List.mem_append.mp hp with hp | hp
    · obtain ⟨ch, hch, hpe⟩ := List.mem_map.mp hp
      have hmem : ch ∈ get_inputs g c := by
        have hch' := List.mem_reverse.mp hch
        split at hch'
        · exact List.mem_reverse.mp hch'
        · exact hch'
      exact Or.inl ⟨ch, hmem, hpe.symm⟩
    · exact Or.inr hp
  · exact Or.inr hp

/-- Traversal invariant: if every stack child and every accumulation key is
reachable from the root, the same holds for the final accumulation map. -/
theorem gradLoop_keys_reachable (fuelC : Nat) (g : List Node) (feed : Option Feed)
    (root target : Nat) (ord : Nat → Bool) :
    ∀ (fuel : Nat) (stack : List (Nat × Option Nat)) (accum : AccumMap) (store : Store)
      (m : AccumMap) (s' : Store),
    (∀ p ∈ stack, Reachable g root p.1) →
    (∀ q ∈ accum, ∀ j, q.1 = some j → Reachable g root j) →
    gradLoop fuelC g feed root target ord fuel stack accum store = some (m, s') →
    ∀ q ∈ m, ∀ j, q.1 = some j → Reachable g root j := by
  intro fuel
  induction fuel with
  | zero =>
    intro stack accum store m s' hst hac h
    cases stack with
    | nil => unfold gradLoop at h; cases h; exact hac
    | cons p rest => exact Option.noConfusion h
  | succ n ih =>
    intro stack accum store m s' hst hac h
    cases stack with
    | nil => unfold gradLoop at h; cases h; exact hac
    | cons p rest =>
      obtain ⟨c, pk⟩ := p
      have hc : Reachable g root c := hst (c, pk) (List.mem_cons_self _ _)
      have hrest : ∀ p ∈ rest, Reachable g root p.1 :=
        fun p hp => hst p (List.mem_cons_of_mem _ hp)
      unfold gradLoop at h
      cases hlk : lookupA accum pk with
      | none => simp only [hlk] at h; exact Option.noConfusion h
      | some pgrad =>
        simp only [hlk] at h
        cases hcag : compute_accum_grad fuelC g feed (pk.getD root) c pgrad store with
        | none => simp only [hcag] at h; exact Option.noConfusion h
        | some res =>
          obtain ⟨contribOpt, store1⟩ := res
          simp only [hcag] at h
          cases hstep : accumStep accum c contribOpt with
          | none => simp only [hstep] at h; exact Option.noConfusion h
          | some accum1 =>
            simp only [hstep] at h
            refine ih _ accum1 store1 m s' ?_ ?_ h
            · intro p hp
              rcases mem_pushChildren g target ord c rest p hp with ⟨ch, hch, hpe⟩ | hp
              · rw [hpe]; exact Reachable.step hc hch
              · exact hrest p hp
            · intro q hq j hj
              rcases accumStep_keys accum c contribOpt accum1 hstep q hq with h1 | ⟨p, hp, h1⟩
              · rw [h1] at hj; cases hj; exact hc
              · exact hac p hp j (h1 ▸ hj)



/-- Claim C7: for any root node and any target node not reachable from it in
the DAG, whenever `grad(root, target, feed)` terminates it returns `None` —
the traversal only ever accumulates gradients at nodes reachable from the
root, so the target's entry is never created. -/
theorem C7_unreachable_target_grad_none (g : List Node) (root target : Nat)
    (feed : Option Feed) (store : Store) (fuelC fuelL : Nat) (ord : Nat → Bool)
    (hun : ¬ Reachable g root target) (r : Option Array) (s' : Store)
    (h : grad g root target feed store fuelC fuelL ord = some (r, s')) : r = none := by
  have hne : root ≠ target := fun he => hun (he ▸ Reachable.refl root)
  unfold grad at h
  cases hcomp : compute fuelC g feed root store with
  | none => simp only [hcomp] at h; exact Option.noConfusion h
  | some res =>
    obtain ⟨rootVal, store1⟩ := res
    simp only [hcomp] at h
    cases hnew : Array.new 1 rootVal.shape with
    | none => simp only [hnew] at h; exact Option.noConfusion h
    | some seed =>
      have hb : (root == target) = false := by simp [hne]
      simp only [hnew, hb, Bool.false_eq_true, if_false] at h
      cases hloop : gradLoop fuelC g feed root target ord fuelL
          (List.map (fun ch => (ch, (none : Option Nat)))
            (if ord root = true then (get_inputs g root).reverse
             else get_inputs g root).reverse)
          [(none, seed)] store1 with
      | none => rw [hloop] at h; exact Option.noConfusion h
      | some res2 =>
        obtain ⟨m, store2⟩ := res2
        rw [hloop] at h
        have hkeys := gradLoop_keys_reachable fuelC g feed root target ord fuelL _ _ _ m store2
          (by
            intro p hp
            obtain ⟨ch, hch, hpe⟩ := List.mem_map.mp hp
            have h1 := List.mem_reverse.mp hch
            have hmem : ch ∈ get_inputs g root := by
              split at h1
              · exact List.mem_reverse.mp h1
              · exact h1
            rw [← hpe]
            exact Reachable.step (Reachable.refl root) hmem)
          (by
            intro q hq j hj
            rcases List.mem_singleton.mp hq with hq'
            rw [hq'] at hj
            exact Option.noConfusion hj)
          hloop
        cases h
        exact lookupA_eq_none_of_keys m (some target) (fun q hq hk => hun (hkeys q hq target hk))

/-- Witness for C7: two disconnected variables; the gradient of one with
respect to the other is `None`. -/
theorem C7_witness :
    ¬ Reachable [Node.Variable 0, Node.Variable 1] 0 1 ∧ (none : Option Array) = none := by
  have hun : ¬ Reachable [Node.Variable 0, Node.Variable 1] 0 1 := by
    intro h
    have key : ∀ j, Reachable [Node.Variable 0, Node.Variable 1] 0 j → j = 0 := by
      intro j hj
      induction hj with
      | refl => rfl
      | step hij hmem ih =>
        subst ih
        simp [get_inputs, Node.get_inputs] at hmem
    exact absurd (key 1 h) (by decide)
  refine ⟨hun, ?_⟩
  exact C7_unreachable_target_grad_none [Node.Variable 0, Node.Variable 1] 0 1 none
    [{ shape := [1], data := [1] }, { shape := [1], data := [2] }] 3 3 (fun _ => false)
    hun none [{ shape := [1], data := [1] }, { shape := [1], data := [2] }]
    (by with_unfolding_all rfl)



/-- Claim C10: `eval` and `grad` leave every `Variable`'s stored array
unchanged (the threaded store comes back untouched), and the store changes
only through the `assign` / `assign_add` mutators, which touch no entry
other than their own variable's. -/
theorem C10_variables_unchanged_except_assign :
    (∀ (g : List Node) (i : Nat) (feed : Option Feed) (store : Store) (fuel : Nat)
        (v : Array) (s' : Store), eval g i feed store fuel = some (v, s') → s' = store) ∧
    (∀ (g : List Node) (root target : Nat) (feed : Option Feed) (store : Store)
        (fuelC fuelL : Nat) (ord : Nat → Bool) (r : Option Array) (s' : Store),
      grad g root target feed store fuelC fuelL ord = some (r, s') → s' = store) ∧
    (∀ (store : Store) (vid : Nat) (a : Array) (j : Nat), j ≠ vid →
      (Tensor.assign store vid a).get? j = store.get? j) ∧
    (∀ (store : Store) (vid : Nat) (a : Array) (st' : Store),
      Tensor.assign_add store vid a = some st' →
      ∀ j, j ≠ vid → st'.get? j = store.get? j) := by
  refine ⟨?_, ?_, ?_, ?_⟩
  · intro g i feed store fuel v s' h
    exact compute_preserves_store fuel g feed i store v s' h
  · exact grad_preserves_store
  · intro store vid a j hj
    simp only [Tensor.assign, List.get?_eq_getElem?]
    exact List.getElem?_set_ne (Ne.symm hj)
  · intro store vid a st' h j hj
    unfold Tensor.assign_add at h
    cases hv : store.get? vid with
    | none => rw [hv] at h; exact Option.noConfusion h
    | some cur =>
      simp only [hv] at h
      cases hadd : Array.add cur a with
      | none => simp only [hadd] at h; exact Option.noConfusion h
      | some r =>
        simp only [hadd] at h
        cases h
        simp only [List.get?_eq_getElem?]
        exact List.getElem?_set_ne (Ne.symm hj)

/-- Witness for C10: a concrete `grad` call returns the store it was given. -/
theorem C10_witness :
    grad [Node.Variable 0, Node.NegOp 0] 1 0 none [{ shape := [1], data := [2] }] 3 3
        (fun _ => false) =
      some (some { shape := [1], data := [-1] }, [{ shape := [1], data := [2] }]) ∧
    ([{ shape := [1], data := [2] }] : Store) = [{ shape := [1], data := [2] }] := by
  refine ⟨by with_unfolding_all rfl, ?_⟩
  exact C10_variables_unchanged_except_assign.2.1 [Node.Variable 0, Node.NegOp 0] 1 0 none
    [{ shape := [1], data := [2] }] 3 3 (fun _ => false)
    (some { shape := [1], data := [-1] }) [{ shape := [1], data := [2] }]
    (by with_unfolding_all rfl)




/-- Length of a 1-padded shape. -/
theorem padShape_length (a b : List Nat) : (padShape a b).length = max a.length b.length := by
  simp [padShape]
  omega

/-- The matching-prefix count is bounded by either length. -/
theorem countEqFromLeft_le_left : ∀ xs ys : List Nat, countEqFromLeft xs ys ≤ xs.length := by
  intro xs
  induction xs with
  | nil => intro ys; cases ys <;> simp [countEqFromLeft]
  | cons x xs ih =>
    intro ys
    cases ys with
    | nil => simp [countEqFromLeft]
    | cons y ys =>
      unfold countEqFromLeft
      split
      · simpa using Nat.succ_le_succ (ih ys)
      · simp

theorem countEqFromLeft_le_right : ∀ xs ys : List Nat, countEqFromLeft xs ys ≤ ys.length := by
  intro xs
  induction xs with
  | nil => intro ys; cases ys <;> simp [countEqFromLeft]
  | cons x xs ih =>
    intro ys
    cases ys with
    | nil => simp [countEqFromLeft]
    | cons y ys =>
      unfold countEqFromLeft
      split
      · simpa using Nat.succ_le_succ (ih ys)
      · simp

/-- The two lists agree on their matching prefix. -/
theorem countEqFromLeft_take_eq : ∀ xs ys : List Nat,
    xs.take (countEqFromLeft xs ys) = ys.take (countEqFromLeft xs ys) := by
  intro xs
  induction xs with
  | nil => intro ys; cases ys <;> simp [countEqFromLeft]
  | cons x xs ih =>
    intro ys
    cases ys with
    | nil => simp [countEqFromLeft]
    | cons y ys =>
      unfold countEqFromLeft
      split
      next hxy =>
        have hxy' : x = y := by simpa using hxy
        simp only [List.take_succ_cons]
        rw [ih ys, hxy']
      · simp

theorem trailingDims_le_left (s1 s2 : List Nat) : trailingDims s1 s2 ≤ s1.length := by
  have := countEqFromLeft_le_left s1.reverse s2.reverse
  simpa [trailingDims] using this

theorem trailingDims_le_right (s1 s2 : List Nat) : trailingDims s1 s2 ≤ s2.length := by
  have := countEqFromLeft_le_right s1.reverse s2.reverse
  simpa [trailingDims] using this

theorem trailing_take_eq (s1 s2 : List Nat) :
    s1.reverse.take (trailingDims s1 s2) = s2.reverse.take (trailingDims s1 s2) :=
  countEqFromLeft_take_eq s1.reverse s2.reverse



/-- Characterization of a successful broadcast shape computation. -/
theorem broadcast_shape_some (s1 s2 s : List Nat)
    (h : get_shape_after_broadcast s1 s2 = some s) :
    s = List.zipWith max (padShape s1 s2) (padShape s2 s1) ∧
      check_shapes_broadcast s1 s2 = true := by
  unfold get_shape_after_broadcast at h
  split at h
  · exact ⟨(Option.some.inj h).symm, by assumption⟩
  · exact Option.noConfusion h

/-- The broadcast result shape has the longer rank. -/
theorem broadcast_shape_length (s1 s2 s : List Nat)
    (h : get_shape_after_broadcast s1 s2 = some s) :
    s.length = max s1.length s2.length := by
  rw [(broadcast_shape_some s1 s2 s h).1]
  simp [List.length_zipWith, padShape_length]
  omega

/-- Both branches of `get_padded_broadcast_shapes` compute the 1-padded
truncated shapes. -/
theorem get_padded_norm (s1 s2 : List Nat) (t : Nat) :
    get_padded_broadcast_shapes s1 s2 t =
      (List.replicate (max s1.length s2.length - s1.length) 1 ++ s1.take (s1.length - t),
       List.replicate (max s1.length s2.length - s2.length) 1 ++ s2.take (s2.length - t)) := by
  unfold get_padded_broadcast_shapes
  dsimp only
  split
  next hle =>
    rw [Nat.max_eq_left hle, Nat.sub_self]
    simp
  next hlt =>
    rw [Nat.max_eq_right (by omega), Nat.sub_self]
    simp

/-- Pointwise max of a shape with itself. -/
theorem zipWith_max_self (l : List Nat) : List.zipWith max l l = l := by
  induction l with
  | nil => rfl
  | cons x xs ih => simp [List.zipWith, ih]

-- the reversed broadcast shape agrees with each operand's reversed shape on
-- the literally-equal trailing region
theorem srev_take_trailing (s1 s2 s : List Nat)
    (h : get_shape_after_broadcast s1 s2 = some s) :
    s.reverse.take (trailingDims s1 s2) = s1.reverse.take (trailingDims s1 s2) := by
  obtain ⟨hs, _⟩ := broadcast_shape_some s1 s2 s h
  have hlen : (padShape s1 s2).length = (padShape s2 s1).length := by
    rw [padShape_length, padShape_length, Nat.max_comm]
  have ht1 := trailingDims_le_left s1 s2
  have ht2 := trailingDims_le_right s1 s2
  rw [hs, List.reverse_zipWith hlen, List.take_zipWith]
  have hp1 : (padShape s1 s2).reverse.take (trailingDims s1 s2) =
      s1.reverse.take (trailingDims s1 s2) := by
    unfold padShape
    rw [List.reverse_append, List.reverse_replicate]
    rw [List.take_append_of_le_length (by simpa using ht1)]
  have hp2 : (padShape s2 s1).reverse.take (trailingDims s1 s2) =
      s1.reverse.take (trailingDims s1 s2) := by
    unfold padShape
    rw [List.reverse_append, List.reverse_replicate]
    rw [List.take_append_of_le_length (by simpa using ht2)]
    exact (trailing_take_eq s1 s2).symm
  rw [hp1, hp2, zipWith_max_self]



-- each operand's slice length equals the output chunk length
theorem get_slice_len_eq_out (s1 s2 s : List Nat)
    (h : get_shape_after_broadcast s1 s2 = some s) :
    get_slice_len s1 (trailingDims s1 s2) =
      ((s.drop (s.length - trailingDims s1 s2)).prod) := by
  set t := trailingDims s1 s2 with hts
  have ht1 := trailingDims_le_left s1 s2
  have hrev := srev_take_trailing s1 s2 s h
  unfold get_slice_len
  split
  next ht0 =>
    have ht0' : t = 0 := by simpa using ht0
    rw [ht0', Nat.sub_zero, List.drop_length]
    rfl
  next =>
    have h1 : s1.drop (s1.length - t) = (s1.reverse.take t).reverse := by
      rw [List.take_reverse, List.reverse_reverse]
    have h2 : s.drop (s.length - t) = (s.reverse.take t).reverse := by
      rw [List.take_reverse, List.reverse_reverse]
    rw [h1, h2, hrev]

-- taking the non-trailing prefix of a padded shape
theorem padShape_take (s1 s2 : List Nat) (t : Nat) (ht1 : t ≤ s1.length) :
    (padShape s1 s2).take (max s1.length s2.length - t) =
      List.replicate (max s1.length s2.length - s1.length) 1 ++
        s1.take (s1.length - t) := by
  unfold padShape
  rw [List.take_append_eq_append_take, List.take_replicate, List.length_replicate]
  have h1 : min (max s1.length s2.length - t) (s2.length - s1.length) =
      s2.length - s1.length := by omega
  have h2 : max s1.length s2.length - t - (s2.length - s1.length) = s1.length - t := by
    omega
  have h3 : s2.length - s1.length = max s1.length s2.length - s1.length := by omega
  rw [h1, h2, h3]

-- the iterator's broadcast result shape over the non-trailing prefix is the
-- leading part of the output shape
theorem res_eq_take (s1 s2 s : List Nat)
    (h : get_shape_after_broadcast s1 s2 = some s) :
    List.zipWith max (get_padded_broadcast_shapes s1 s2 (trailingDims s1 s2)).1
        (get_padded_broadcast_shapes s1 s2 (trailingDims s1 s2)).2 =
      s.take (s.length - trailingDims s1 s2) := by
  set t := trailingDims s1 s2 with hts
  have ht1 := trailingDims_le_left s1 s2
  have ht2 := trailingDims_le_right s1 s2
  obtain ⟨hs, _⟩ := broadcast_shape_some s1 s2 s h
  have hlen := broadcast_shape_length s1 s2 s h
  have hn : s.length - t = max s1.length s2.length - t := by rw [hlen]
  have hmc : max s2.length s1.length = max s1.length s2.length := Nat.max_comm _ _
  have hstep : s.take (s.length - t) =
      List.zipWith max ((padShape s1 s2).take (max s1.length s2.length - t))
        ((padShape s2 s1).take (max s1.length s2.length - t)) := by
    conv_lhs => rw [hn, hs]
    rw [List.take_zipWith]
  rw [get_padded_norm]
  dsimp only
  rw [hstep, padShape_take s1 s2 t ht1, ← hmc, padShape_take s2 s1 t ht2, hmc]



theorem writeChunk_length (buff : List ℚ) (off : Nat) (chunk : List ℚ)
    (h : off + chunk.length ≤ buff.length) :
    (writeChunk buff off chunk).length = buff.length := by
  unfold writeChunk
  simp [List.length_take, List.length_drop]
  omega

-- all the buffer-filling loops preserve the buffer length as long as every
-- write stays in bounds
theorem foldl_writeChunk_length {α : Type} (g : α → Nat) (f : α → List ℚ) :
    ∀ (xs : List α) (buff : List ℚ),
      (∀ x ∈ xs, g x + (f x).length ≤ buff.length) →
      (xs.foldl (fun b x => writeChunk b (g x) (f x)) buff).length = buff.length := by
  intro xs
  induction xs with
  | nil => intro buff _; rfl
  | cons x xs ih =>
    intro buff hb
    have hx := hb x (List.mem_cons_self _ _)
    have h1 : (writeChunk buff (g x) (f x)).length = buff.length :=
      writeChunk_length buff (g x) (f x) hx
    simp only [List.foldl_cons]
    rw [ih (writeChunk buff (g x) (f x))
      (fun y hy => h1 ▸ hb y (List.mem_cons_of_mem _ hy)), h1]

theorem runIdx_length_le (shape : List Nat) :
    ∀ (fuel : Nat) (cur : List Nat), (runIdx shape cur fuel).length ≤ fuel := by
  intro fuel
  induction fuel with
  | zero => intro cur; simp [runIdx]
  | succ n ih =>
    intro cur
    unfold runIdx
    dsimp only
    split
    · simp
    · simpa using ih _

theorem length_flatMap_range_map {β : Type} (n m : Nat) (f : Nat → Nat → β) :
    ((List.range n).flatMap (fun i => (List.range m).map (f i))).length = n * m := by
  induction n with
  | zero => simp
  | succ k ih =>
    rw [List.range_succ]
    simp only [List.flatMap_append, List.length_append, ih]
    simp [Nat.succ_mul]

theorem length_general_matmul (data1 : List ℚ) (r1 c1 : Nat) (data2 : List ℚ) (c2 : Nat) :
    (general_matmul_2d_matrix_slices data1 r1 c1 data2 c2).length = r1 * c2 :=
  length_flatMap_range_map r1 c2 _

theorem length_transpose_2d (data : List ℚ) (r c : Nat) :
    (transpose_2d_matrix_slices data r c).length = c * r :=
  length_flatMap_range_map c r _



theorem broadcastOffsets_case (s1 s2 : List Nat) (t : Nat) (offs : List (Nat × Nat))
    (h : broadcastOffsets s1 s2 t = some offs) :
    (List.zipWith max (get_padded_broadcast_shapes s1 s2 t).1
        (get_padded_broadcast_shapes s1 s2 t).2 = [] ∧ offs.length = 1) ∨
    (offs.length ≤ (List.zipWith max (get_padded_broadcast_shapes s1 s2 t).1
        (get_padded_broadcast_shapes s1 s2 t).2).prod) := by
  unfold broadcastOffsets at h
  split at h
  · split at h
    · dsimp only at h
      split at h
      next hemp =>
        cases h
        left
        exact ⟨List.isEmpty_iff.mp hemp, by simp⟩
      next hemp =>
        cases h
        right
        rw [List.length_map]
        exact runIdx_length_le _ _ _
    · exact Option.noConfusion h
  · exact Option.noConfusion h

theorem compute_elementwise_length (a b : Array) (f : ℚ → ℚ → ℚ) (c : Array)
    (h : compute_elementwise_with_other_array a b f = some c) :
    c.data.length = c.shape.prod := by
  unfold compute_elementwise_with_other_array at h
  cases hs : get_shape_after_broadcast a.shape b.shape with
  | none => rw [hs] at h; exact Option.noConfusion h
  | some s =>
    simp only [hs] at h
    cases hoff : broadcastOffsets a.shape b.shape (trailingDims a.shape b.shape) with
    | none => rw [hoff] at h; exact Option.noConfusion h
    | some offs =>
      simp only [hoff] at h
      cases h
      dsimp only
      set t := trailingDims a.shape b.shape with hts
      set L := (s.drop (s.length - t)).prod with hL
      have hres := res_eq_take a.shape b.shape s hs
      have hLs : (s.take (s.length - t)).prod * L = s.prod := by
        rw [hL]
        exact List.prod_take_mul_prod_drop s (s.length - t)
      have hcount : offs.length * L ≤ s.prod := by
        rcases broadcastOffsets_case a.shape b.shape t offs hoff with ⟨hemp, hone⟩ | hle
        · rw [hone, Nat.one_mul]
          rw [hres] at hemp
          have h0 : s.length - t = 0 ∨ s = [] := by
            rcases List.take_eq_nil_iff.mp hemp with h1 | h1
            · left; exact h1
            · right; exact h1
          rcases h0 with h0 | h0
          · rw [hL, h0, List.drop_zero]
          · rw [hL, h0]; simp
        · calc offs.length * L ≤ (s.take (s.length - t)).prod * L :=
                Nat.mul_le_mul_right L (hres ▸ hle)
            _ = s.prod := hLs
      have hlen1 : get_slice_len a.shape t = L :=
        hL ▸ get_slice_len_eq_out a.shape b.shape s hs
      refine Eq.trans (foldl_writeChunk_length
        (fun x => L * x.1)
        (fun x => List.zipWith f ((a.data.drop x.2.1).take (get_slice_len a.shape t))
          ((b.data.drop x.2.2).take (get_slice_len b.shape t)))
        offs.enum (List.replicate s.prod 0) ?_) (by simp)
      intro x hx
      have hx1 : x.1 < offs.length := by
        have := List.of_mem_zip (List.enum_eq_zip_range offs ▸ hx)
        exact List.mem_range.mp this.1
      have hchunk : (List.zipWith f ((a.data.drop x.2.1).take (get_slice_len a.shape t))
          ((b.data.drop x.2.2).take (get_slice_len b.shape t))).length ≤ L := by
        calc _ ≤ ((a.data.drop x.2.1).take (get_slice_len a.shape t)).length := by
              rw [List.length_zipWith]; exact Nat.min_le_left _ _
          _ ≤ get_slice_len a.shape t := by
              rw [List.length_take]; exact Nat.min_le_left _ _
          _ = L := hlen1
      have : L * x.1 + L ≤ offs.length * L := by
        have : (x.1 + 1) * L ≤ offs.length * L := Nat.mul_le_mul_right L hx1
        calc L * x.1 + L = (x.1 + 1) * L := by ring
          _ ≤ offs.length * L := this
      simp only [List.length_replicate]
      omega



theorem res_matmul_eq_pre (s1 s2 pre : List Nat) (h2a : 2 ≤ s1.length)
    (h2b : 2 ≤ s2.length)
    (hpre : get_shape_after_broadcast (s1.take (s1.length - 2))
      (s2.take (s2.length - 2)) = some pre) :
    List.zipWith max (get_padded_broadcast_shapes s1 s2 2).1
      (get_padded_broadcast_shapes s1 s2 2).2 = pre := by
  obtain ⟨hp, _⟩ := broadcast_shape_some _ _ _ hpre
  rw [get_padded_norm, hp]
  dsimp only
  unfold padShape
  have e1 : max s1.length s2.length - s1.length =
      (s2.take (s2.length - 2)).length - (s1.take (s1.length - 2)).length := by
    simp only [List.length_take]
    omega
  have e2 : max s1.length s2.length - s2.length =
      (s1.take (s1.length - 2)).length - (s2.take (s2.length - 2)).length := by
    simp only [List.length_take]
    omega
  rw [e1, e2]

theorem Array.matmul_length (a b c : Array) (h : Array.matmul a b = some c) :
    c.data.length = c.shape.prod := by
  unfold Array.matmul at h
  cases hns : get_shape_after_broadcast_matmul a.shape b.shape with
  | none => rw [hns] at h; exact Option.noConfusion h
  | some ns =>
    simp only [hns] at h
    cases hoff : broadcastOffsets a.shape b.shape 2 with
    | none => rw [hoff] at h; exact Option.noConfusion h
    | some offs =>
      simp only [hoff] at h
      cases h
      dsimp only
      -- unpack the matmul shape computation
      unfold get_shape_after_broadcast_matmul at hns
      split at hns
      · exact Option.noConfusion hns
      next hrank =>
        split at hns
        · exact Option.noConfusion hns
        next hinner =>
          cases hpre : get_shape_after_broadcast (a.shape.take (a.shape.length - 2))
              (b.shape.take (b.shape.length - 2)) with
          | none => rw [hpre] at hns; exact Option.noConfusion hns
          | some pre =>
            simp only [hpre] at hns
            cases hns
            have h2 : 2 ≤ a.shape.length ∧ 2 ≤ b.shape.length := by simpa using hrank
            have hres := res_matmul_eq_pre a.shape b.shape pre h2.1 h2.2 hpre
            set r1 := a.shape.getD (a.shape.length - 2) 0 with hr1
            set c2 := b.shape.getD (b.shape.length - 1) 0 with hc2
            have hprod : (pre ++ [r1, c2]).prod = pre.prod * (r1 * c2) := by
              rw [List.prod_append]
              simp [Nat.mul_assoc]
            refine Eq.trans (foldl_writeChunk_length
              (fun x => r1 * c2 * x.1)
              (fun x => general_matmul_2d_matrix_slices
                ((a.data.drop x.2.1).take (get_slice_len a.shape 2))
                r1 (a.shape.getD (a.shape.length - 1) 0)
                ((b.data.drop x.2.2).take (get_slice_len b.shape 2)) c2)
              offs.enum (List.replicate (pre ++ [r1, c2]).prod 0) ?_) (by simp)
            intro x hx
            have hx1 : x.1 < offs.length := by
              have := List.of_mem_zip (List.enum_eq_zip_range offs ▸ hx)
              exact List.mem_range.mp this.1
            rw [length_general_matmul, List.length_replicate, hprod]
            rcases broadcastOffsets_case a.shape b.shape 2 offs hoff with ⟨hemp, hone⟩ | hle
            · rw [hres] at hemp
              rw [hemp]
              simp only [List.prod_nil, Nat.one_mul]
              have : x.1 = 0 := by omega
              rw [this]
              omega
            · rw [hres] at hle
              have hb : (x.1 + 1) * (r1 * c2) ≤ pre.prod * (r1 * c2) :=
                Nat.mul_le_mul_right _ (by omega)
              calc r1 * c2 * x.1 + r1 * c2 = (x.1 + 1) * (r1 * c2) := by ring
                _ ≤ pre.prod * (r1 * c2) := hb



theorem drop_len_sub_two : ∀ (n : Nat) (s : List Nat), s.length = n + 2 →
    s.drop n = [s.getD n 0, s.getD (n + 1) 0] := by
  intro n
  induction n with
  | zero =>
    intro s hs
    match s, hs with
    | [x, y], _ => rfl
  | succ k ih =>
    intro s hs
    match s, hs with
    | x :: xs, hs =>
      have hxs : xs.length = k + 2 := by simpa using hs
      simpa using ih xs hxs

theorem Array.transpose_length (a c : Array) (h : a.transpose = some c) :
    c.data.length = c.shape.prod := by
  unfold Array.transpose at h
  cases hts : get_transposed_shape a.shape with
  | none => rw [hts] at h; exact Option.noConfusion h
  | some ns =>
    simp only [hts] at h
    cases h
    dsimp only
    unfold get_transposed_shape at hts
    split at hts
    · exact Option.noConfusion hts
    next hrank =>
      cases hts
      have h2 : 2 ≤ a.shape.length := by omega
      set r := a.shape.getD (a.shape.length - 2) 0 with hr
      set cc := a.shape.getD (a.shape.length - 1) 0 with hcc
      have hdp : a.shape.drop (a.shape.length - 2) = [r, cc] := by
        have hd := drop_len_sub_two (a.shape.length - 2) a.shape (by omega)
        have hidx : a.shape.length - 2 + 1 = a.shape.length - 1 := by omega
        rw [hd, hidx]
      have hprod : (a.shape.take (a.shape.length - 2) ++ [cc, r]).prod = a.shape.prod := by
        rw [List.prod_append, ← List.prod_take_mul_prod_drop a.shape (a.shape.length - 2), hdp]
        simp [Nat.mul_comm]
      rw [hprod]
      refine Eq.trans (foldl_writeChunk_length
        (fun i => i * (r * cc))
        (fun i => transpose_2d_matrix_slices
          ((a.data.drop (i * (r * cc))).take (r * cc)) r cc)
        (List.range (a.shape.prod / (r * cc))) (List.replicate a.shape.prod 0) ?_)
        (by simp)
      intro i hi
      have hi' : i < a.shape.prod / (r * cc) := List.mem_range.mp hi
      rw [length_transpose_2d, List.length_replicate]
      have h1 : (i + 1) * (r * cc) ≤ (a.shape.prod / (r * cc)) * (r * cc) :=
        Nat.mul_le_mul_right _ (by omega)
      have h2' : (a.shape.prod / (r * cc)) * (r * cc) ≤ a.shape.prod :=
        Nat.div_mul_le_self _ _
      calc i * (r * cc) + cc * r = (i + 1) * (r * cc) := by ring
        _ ≤ a.shape.prod := le_trans h1 h2'

theorem reduceAxisLoop_length (data : List ℚ) (f : ℚ → ℚ → ℚ)
    (axis_len single_slide dim_len : Nat) :
    ∀ (n processed total_slide current_row : Nat),
      (reduceAxisLoop data f axis_len single_slide dim_len n processed
        total_slide current_row).length = n := by
  intro n
  induction n with
  | zero => intro p ts cr; rfl
  | succ k ih =>
    intro p ts cr
    unfold reduceAxisLoop
    dsimp only
    split <;> simp [ih]

theorem reduce_length (a : Array) (f : ℚ → ℚ → ℚ) (axis : Option Nat) (kd : Bool)
    (c : Array) (h : reduce a f axis kd = some c) : c.data.length = c.shape.prod := by
  unfold reduce at h
  cases hsh : get_shape_after_reduce a.shape axis kd with
  | none => rw [hsh] at h; exact Option.noConfusion h
  | some ns =>
    simp only [hsh] at h
    cases axis with
    | some av =>
      simp only at h
      cases h
      exact reduceAxisLoop_length _ _ _ _ _ _ _ _ _
    | none =>
      simp only at h
      cases h
      unfold get_shape_after_reduce at hsh
      dsimp only at hsh
      split at hsh
      · cases hsh
        simp
      · cases hsh
        rfl



/-- Claim C9: `data.len() == product(shape)` holds for every array the public
API produces — the checked constructors establish it, and the elementwise
ops (array-array, with broadcasting, which also cover the `*_assign`
variants), the scalar ops, `map`, `neg`, `matmul`, `transpose` and the
reductions all preserve it. -/
theorem C9_length_invariant :
    (∀ (v : ℚ) (s : List Nat) (a : Array), Array.new v s = some a →
      a.data.length = a.shape.prod) ∧
    (∀ (d : List ℚ) (s : List Nat) (a : Array), Array.from_vec d s = some a →
      a.data.length = a.shape.prod) ∧
    (∀ (a b : Array) (f : ℚ → ℚ → ℚ) (c : Array),
      compute_elementwise_with_other_array a b f = some c →
      c.data.length = c.shape.prod) ∧
    (∀ (a b c : Array), Array.add a b = some c → c.data.length = c.shape.prod) ∧
    (∀ (a b c : Array), Array.sub a b = some c → c.data.length = c.shape.prod) ∧
    (∀ (a b c : Array), Array.mul a b = some c → c.data.length = c.shape.prod) ∧
    (∀ (a b c : Array), Array.div a b = some c → c.data.length = c.shape.prod) ∧
    (∀ (a : Array) (s : ℚ), a.data.length = a.shape.prod →
      ((compute_elementwise_with_scalar a s (fun x y => x + y)).data.length =
        (compute_elementwise_with_scalar a s (fun x y => x + y)).shape.prod ∧
       (a.sub_scalar s).data.length = (a.sub_scalar s).shape.prod ∧
       (a.mul_scalar s).data.length = (a.mul_scalar s).shape.prod ∧
       (a.div_scalar s).data.length = (a.div_scalar s).shape.prod)) ∧
    (∀ (a : Array) (f : ℚ → ℚ), a.data.length = a.shape.prod →
      (a.map f).data.length = (a.map f).shape.prod) ∧
    (∀ (a : Array), a.data.length = a.shape.prod →
      a.neg.data.length = a.neg.shape.prod) ∧
    (∀ (a b c : Array), Array.matmul a b = some c → c.data.length = c.shape.prod) ∧
    (∀ (a c : Array), Array.transpose a = some c → c.data.length = c.shape.prod) ∧
    (∀ (a : Array) (f : ℚ → ℚ → ℚ) (axis : Option Nat) (kd : Bool) (c : Array),
      reduce a f axis kd = some c → c.data.length = c.shape.prod) ∧
    (∀ (a : Array) (axis : Option Nat) (kd : Bool) (c : Array),
      reduce_sum a axis kd = some c → c.data.length = c.shape.prod) ∧
    (∀ (a : Array) (axis : Option Nat) (kd : Bool) (c : Array),
      reduce_mean a axis kd = some c → c.data.length = c.shape.prod) := by
  have hnew : ∀ (v : ℚ) (s : List Nat) (a : Array), Array.new v s = some a →
      a.data.length = a.shape.prod := by
    intro v s a h
    unfold Array.new at h
    split at h
    · cases h; simp
    · exact Option.noConfusion h
  have hsum : ∀ (a : Array) (axis : Option Nat) (kd : Bool) (c : Array),
      reduce_sum a axis kd = some c → c.data.length = c.shape.prod := by
    intro a axis kd c h
    exact reduce_length a _ axis kd c h
  refine ⟨hnew, ?_, compute_elementwise_length, ?_, ?_, ?_, ?_, ?_, ?_, ?_,
    Array.matmul_length, Array.transpose_length, reduce_length, hsum, ?_⟩
  · intro d s a h
    unfold Array.from_vec at h
    split at h
    · split at h
      · cases h
        simpa using (by assumption : (d.length == s.prod) = true)
      · exact Option.noConfusion h
    · exact Option.noConfusion h
  · intro a b c h; exact compute_elementwise_length a b _ c h
  · intro a b c h; exact compute_elementwise_length a b _ c h
  · intro a b c h; exact compute_elementwise_length a b _ c h
  · intro a b c h; exact compute_elementwise_length a b _ c h
  · intro a s h
    refine ⟨?_, ?_, ?_, ?_⟩ <;>
      simpa [compute_elementwise_with_scalar, Array.sub_scalar, Array.mul_scalar,
        Array.div_scalar] using h
  · intro a f h
    simpa [Array.map] using h
  · intro a h
    simpa [Array.neg, Array.map] using h
  · intro a axis kd c h
    unfold reduce_mean at h
    cases hs : reduce_sum a axis kd with
    | none => rw [hs] at h; exact Option.noConfusion h
    | some s =>
      simp only [hs] at h
      cases h
      simpa [Array.div_scalar, compute_elementwise_with_scalar] using
        reduce_length a _ axis kd s hs

/-- Witness for C9: a broadcasting `[2,1] + [3]` addition produces a `[2,3]`
array with 6 elements. -/
theorem C9_witness :
    Array.add { shape := [2, 1], data := [1, 2] } { shape := [3], data := [1, 1, 1] } =
      some { shape := [2, 3], data := [2, 2, 2, 3, 3, 3] } ∧
    ({ shape := [2, 3], data := [2, 2, 2, 3, 3, 3] } : Array).data.length =
      ({ shape := [2, 3], data := [2, 2, 2, 3, 3, 3] } : Array).shape.prod := by
  have hadd : Array.add { shape := [2, 1], data := [1, 2] }
      { shape := [3], data := [1, 1, 1] } =
      some { shape := [2, 3], data := [2, 2, 2, 3, 3, 3] } := by
    with_unfolding_all rfl
  exact ⟨hadd, C9_length_invariant.2.2.2.1 _ _ _ hadd⟩

theorem InRangeR_length : ∀ (cs ds : List Nat), InRangeR cs ds → cs.length = ds.length := by
  intro cs
  induction cs with
  | nil => intro ds h; cases ds with
    | nil => rfl
    | cons d ds => exact absurd h (by simp [InRangeR])
  | cons c cs ih =>
    intro ds h
    cases ds with
    | nil => exact absurd h (by simp [InRangeR])
    | cons d ds =>
      obtain ⟨h1, h2⟩ := h
      simpa using ih ds h2

theorem flatR_lt : ∀ (cs ds : List Nat), InRangeR cs ds → flatR cs ds < ds.prod := by
  intro cs
  induction cs with
  | nil => intro ds h; cases ds with
    | nil => simp [flatR]
    | cons d ds => exact absurd h (by simp [InRangeR])
  | cons c cs ih =>
    intro ds h
    cases ds with
    | nil => exact absurd h (by simp [InRangeR])
    | cons d ds =>
      obtain ⟨h1, h2⟩ := h
      have h3 := ih ds h2
      simp only [flatR, List.prod_cons]
      have h4 : d * (flatR cs ds + 1) ≤ d * ds.prod := Nat.mul_le_mul_left d (by omega)
      rw [Nat.mul_add, Nat.mul_one] at h4
      omega

theorem unflatR_inRange : ∀ (ds : List Nat) (k : Nat), k < ds.prod →
    InRangeR (unflatR ds k) ds := by
  intro ds
  induction ds with
  | nil => intro k hk; simp [unflatR, InRangeR]
  | cons d ds ih =>
    intro k hk
    simp only [List.prod_cons] at hk
    have hd : 0 < d := by
      rcases Nat.eq_zero_or_pos d with h | h
      · rw [h] at hk; omega
      · exact h
    have hk' : k < d * ds.prod := hk
    exact ⟨Nat.mod_lt _ hd, ih _ (Nat.div_lt_of_lt_mul hk')⟩

theorem flatR_unflatR : ∀ (ds : List Nat) (k : Nat), k < ds.prod →
    flatR (unflatR ds k) ds = k := by
  intro ds
  induction ds with
  | nil => intro k hk; simp [List.prod_nil] at hk; simp [unflatR, flatR, hk]
  | cons d ds ih =>
    intro k hk
    simp only [List.prod_cons] at hk
    have hd : 0 < d := by
      rcases Nat.eq_zero_or_pos d with h | h
      · rw [h] at hk; omega
      · exact h
    simp only [unflatR, flatR]
    have hk' : k < d * ds.prod := hk
    rw [ih (k / d) (Nat.div_lt_of_lt_mul hk')]
    exact Nat.mod_add_div k d

theorem unflatR_flatR : ∀ (cs ds : List Nat), InRangeR cs ds →
    unflatR ds (flatR cs ds) = cs := by
  intro cs
  induction cs with
  | nil => intro ds h; cases ds with
    | nil => rfl
    | cons d ds => exact absurd h (by simp [InRangeR])
  | cons c cs ih =>
    intro ds h
    cases ds with
    | nil => exact absurd h (by simp [InRangeR])
    | cons d ds =>
      obtain ⟨h1, h2⟩ := h
      simp only [flatR, unflatR]
      have hd : 0 < d := by omega
      have hmod : (c + d * flatR cs ds) % d = c := by
        rw [Nat.add_mul_mod_self_left, Nat.mod_eq_of_lt h1]
      have hdiv : (c + d * flatR cs ds) / d = flatR cs ds := by
        rw [Nat.add_mul_div_left _ _ hd, Nat.div_eq_of_lt h1, Nat.zero_add]
      rw [hmod, hdiv, ih ds h2]

theorem unflatR_length : ∀ (ds : List Nat) (k : Nat), (unflatR ds k).length = ds.length := by
  intro ds
  induction ds with
  | nil => intro k; rfl
  | cons d ds ih => intro k; simp [unflatR, ih]

theorem flatR_cons (c d : Nat) (cs ds : List Nat) :
    flatR (c :: cs) (d :: ds) = c + d * flatR cs ds := rfl

theorem unflatR_cons (d k : Nat) (ds : List Nat) :
    unflatR (d :: ds) k = k % d :: unflatR ds (k / d) := rfl

theorem incCarry_snd : ∀ (cs ds : List Nat), InRangeR cs ds → cs ≠ [] →
    ((incCarry cs ds).2 = true ↔ flatR cs ds + 1 = ds.prod) := by
  intro cs
  induction cs with
  | nil => intro ds h hne; exact absurd rfl hne
  | cons c cs ih =>
    intro ds h _
    cases ds with
    | nil => exact absurd h (by simp [InRangeR])
    | cons d ds =>
      obtain ⟨h1, h2⟩ := h
      cases cs with
      | nil =>
        cases ds with
        | nil => simp [incCarry, flatR]
        | cons d2 ds2 => exact absurd h2 (by simp [InRangeR])
      | cons c2 cs2 =>
        cases ds with
        | nil => exact absurd h2 (by simp [InRangeR])
        | cons d2 ds2 =>
          have hf := flatR_lt _ _ h2
          by_cases hc : c + 1 = d
          · have hstep : (incCarry (c :: c2 :: cs2) (d :: d2 :: ds2)).2 =
                (incCarry (c2 :: cs2) (d2 :: ds2)).2 := by
              simp [incCarry, hc]
            rw [hstep, ih _ h2 (by simp)]
            conv_rhs => rw [flatR_cons, List.prod_cons]
            constructor
            · intro hE
              have h5 : d * (flatR (c2 :: cs2) (d2 :: ds2) + 1) =
                  d * (d2 :: ds2).prod := by rw [hE]
              rw [Nat.mul_add, Nat.mul_one] at h5
              omega
            · intro hE
              have hd : 0 < d := by omega
              have h5 : d * (flatR (c2 :: cs2) (d2 :: ds2) + 1) =
                  d * (d2 :: ds2).prod := by
                rw [Nat.mul_add, Nat.mul_one]
                omega
              exact Nat.eq_of_mul_eq_mul_left hd h5
          · have hstep : (incCarry (c :: c2 :: cs2) (d :: d2 :: ds2)).2 = false := by
              simp [incCarry, hc]
            rw [hstep]
            conv_rhs => rw [flatR_cons, List.prod_cons]
            have h4 : d * (flatR (c2 :: cs2) (d2 :: ds2) + 1) ≤ d * (d2 :: ds2).prod :=
              Nat.mul_le_mul_left d (by omega)
            rw [Nat.mul_add, Nat.mul_one] at h4
            constructor
            · intro hF; exact absurd hF (by simp)
            · intro hE; exfalso; omega

theorem incCarry_fst : ∀ (cs ds : List Nat), InRangeR cs ds → cs ≠ [] →
    flatR cs ds + 1 < ds.prod →
    (incCarry cs ds).1 = unflatR ds (flatR cs ds + 1) := by
  intro cs
  induction cs with
  | nil => intro ds h hne; exact absurd rfl hne
  | cons c cs ih =>
    intro ds h _ hlt
    cases ds with
    | nil => exact absurd h (by simp [InRangeR])
    | cons d ds =>
      obtain ⟨h1, h2⟩ := h
      cases cs with
      | nil =>
        cases ds with
        | nil =>
          have hlt' : c + 1 < d := by simpa [flatR] using hlt
          simp [incCarry, unflatR, flatR, Nat.mod_eq_of_lt hlt', Nat.div_eq_of_lt hlt']
        | cons d2 ds2 => exact absurd h2 (by simp [InRangeR])
      | cons c2 cs2 =>
        cases ds with
        | nil => exact absurd h2 (by simp [InRangeR])
        | cons d2 ds2 =>
          have hf := flatR_lt _ _ h2
          have hd : 0 < d := by omega
          rw [flatR_cons, List.prod_cons] at hlt
          by_cases hc : c + 1 = d
          · have hstep : (incCarry (c :: c2 :: cs2) (d :: d2 :: ds2)).1 =
                0 :: (incCarry (c2 :: cs2) (d2 :: ds2)).1 := by
              simp [incCarry, hc]
            rw [hstep, flatR_cons]
            have hflat : c + d * flatR (c2 :: cs2) (d2 :: ds2) + 1 =
                d * (flatR (c2 :: cs2) (d2 :: ds2) + 1) := by
              rw [Nat.mul_add, Nat.mul_one]
              omega
            rw [hflat]
            have hlt' : flatR (c2 :: cs2) (d2 :: ds2) + 1 < (d2 :: ds2).prod := by
              rw [hflat] at hlt
              exact Nat.lt_of_mul_lt_mul_left hlt
            rw [ih _ h2 (by simp) hlt']
            conv_rhs => rw [unflatR_cons]
            rw [Nat.mul_mod_right, Nat.mul_div_cancel_left _ hd]
          · have hstep : (incCarry (c :: c2 :: cs2) (d :: d2 :: ds2)).1 =
                (c + 1) :: c2 :: cs2 := by
              simp [incCarry, hc]
            rw [hstep, flatR_cons]
            have hc1 : c + 1 < d := by omega
            have harr : c + d * flatR (c2 :: cs2) (d2 :: ds2) + 1 =
                (c + 1) + d * flatR (c2 :: cs2) (d2 :: ds2) := by omega
            rw [harr, unflatR_cons, Nat.add_mul_mod_self_left, Nat.mod_eq_of_lt hc1,
              Nat.add_mul_div_left _ _ hd, Nat.div_eq_of_lt hc1, Nat.zero_add,
              unflatR_flatR _ _ h2]

theorem runIdx_succ (rs cur : List Nat) (n : Nat) :
    runIdx rs cur (n + 1) =
      cur :: (if (incCarry cur.reverse rs.reverse).2 then []
        else runIdx rs (incCarry cur.reverse rs.reverse).1.reverse n) := rfl

theorem runIdx_spec : ∀ (n : Nat) (rs cur : List Nat), cur ≠ [] →
    InRangeR cur.reverse rs.reverse →
    flatR cur.reverse rs.reverse + n = rs.reverse.prod →
    runIdx rs cur n = (List.range' (flatR cur.reverse rs.reverse) n).map
      (fun k => (unflatR rs.reverse k).reverse) := by
  intro n
  induction n with
  | zero => intro rs cur _ _ _; simp [runIdx]
  | succ n ih =>
    intro rs cur hne hin hsum
    have hcne : cur.reverse ≠ [] := by
      intro h
      exact hne (by simpa using congrArg List.reverse h)
    have hhead : (unflatR rs.reverse (flatR cur.reverse rs.reverse)).reverse = cur := by
      rw [unflatR_flatR _ _ hin, List.reverse_reverse]
    rw [runIdx_succ, List.range'_succ, List.map_cons, hhead]
    cases n with
    | zero =>
      have hdone : (incCarry cur.reverse rs.reverse).2 = true :=
        (incCarry_snd _ _ hin hcne).mpr (by omega)
      rw [if_pos hdone]
      simp
    | succ m =>
      have hlt : flatR cur.reverse rs.reverse + 1 < rs.reverse.prod := by omega
      have hr2 : (incCarry cur.reverse rs.reverse).2 = false := by
        rcases Bool.eq_false_or_eq_true (incCarry cur.reverse rs.reverse).2 with h | h
        · have := (incCarry_snd _ _ hin hcne).mp h
          omega
        · exact h
      rw [if_neg (by simp [hr2])]
      have hfst : (incCarry cur.reverse rs.reverse).1 =
          unflatR rs.reverse (flatR cur.reverse rs.reverse + 1) :=
        incCarry_fst _ _ hin hcne hlt
      rw [hfst]
      have hrr : (unflatR rs.reverse (flatR cur.reverse rs.reverse + 1)).reverse.reverse =
          unflatR rs.reverse (flatR cur.reverse rs.reverse + 1) := List.reverse_reverse _
      have hin' : InRangeR
          (unflatR rs.reverse (flatR cur.reverse rs.reverse + 1)).reverse.reverse
          rs.reverse := by
        rw [hrr]
        exact unflatR_inRange _ _ hlt
      have hne' : (unflatR rs.reverse (flatR cur.reverse rs.reverse + 1)).reverse ≠ [] := by
        intro h
        have hL := congrArg List.length h
        simp [unflatR_length] at hL
        have hL2 := InRangeR_length _ _ hin
        simp at hL2
        apply hne
        apply List.length_eq_zero.mp
        rw [hL2]
        simp [hL]
      have hflat' : flatR
          (unflatR rs.reverse (flatR cur.reverse rs.reverse + 1)).reverse.reverse
          rs.reverse = flatR cur.reverse rs.reverse + 1 := by
        rw [hrr]
        exact flatR_unflatR _ _ hlt
      rw [ih rs _ hne' hin' (by rw [hflat']; omega), hflat']

theorem flatR_zeros : ∀ (n : Nat) (ds : List Nat), flatR (List.replicate n 0) ds = 0 := by
  intro n
  induction n with
  | zero => intro ds; rfl
  | succ n ih =>
    intro ds
    cases ds with
    | nil => rfl
    | cons d ds => simp [List.replicate, flatR, ih]

theorem InRangeR_replicate_zero : ∀ (ds : List Nat), (∀ d ∈ ds, 0 < d) →
    InRangeR (List.replicate ds.length 0) ds := by
  intro ds
  induction ds with
  | nil => intro _; trivial
  | cons d ds ih =>
    intro h
    exact ⟨h d (by simp), ih (fun x hx => h x (by simp [hx]))⟩

theorem runIdx_enum (rs : List Nat) (hne : rs ≠ []) (hpos : ∀ d ∈ rs, 0 < d) :
    runIdx rs (List.replicate rs.length 0) rs.prod =
      (List.range rs.prod).map (fun k => (unflatR rs.reverse k).reverse) := by
  have h1 : (List.replicate rs.length 0).reverse = List.replicate rs.length 0 :=
    List.reverse_replicate _ _
  have hlen : rs.reverse.length = rs.length := List.length_reverse _
  have hin : InRangeR (List.replicate rs.length 0).reverse rs.reverse := by
    rw [h1, ← hlen]
    exact InRangeR_replicate_zero rs.reverse (fun d hd => hpos d (List.mem_reverse.mp hd))
  have hflat : flatR (List.replicate rs.length 0).reverse rs.reverse = 0 := by
    rw [h1]
    exact flatR_zeros _ _
  have hprod : rs.reverse.prod = rs.prod := List.prod_reverse rs
  have hL : 0 < rs.length := List.length_pos.mpr hne
  have hcne : List.replicate rs.length 0 ≠ [] := by
    intro h
    rw [List.replicate_eq_nil_iff] at h
    omega
  rw [runIdx_spec rs.prod rs _ hcne hin (by rw [hflat, Nat.zero_add, hprod]), hflat,
    List.range_eq_range']

theorem foldl_writeChunk_join {α : Type} (L : Nat) (f : α → List ℚ) :
    ∀ (xs : List α) (k0 : Nat) (buff : List ℚ),
      (∀ x ∈ xs, (f x).length = L) →
      buff.length = (k0 + xs.length) * L →
      (xs.enumFrom k0).foldl (fun b x => writeChunk b (L * x.1) (f x.2)) buff =
        buff.take (k0 * L) ++ (xs.map f).flatten := by
  intro xs
  induction xs with
  | nil =>
    intro k0 buff _ hb
    simp only [List.enumFrom, List.foldl_nil, List.map_nil]
    rw [List.take_of_length_le (by rw [hb]; simp)]
    simp
  | cons x xs ih =>
    intro k0 buff hf hb
    simp only [List.length_cons] at hb
    have hfx : (f x).length = L := hf x (List.mem_cons_self _ _)
    have hwb : L * k0 + (f x).length ≤ buff.length := by
      rw [hfx, hb, Nat.add_mul, Nat.add_mul, Nat.one_mul, Nat.mul_comm L k0]
      omega
    have hb1 : (writeChunk buff (L * k0) (f x)).length = buff.length :=
      writeChunk_length _ _ _ hwb
    simp only [List.enumFrom, List.foldl_cons]
    rw [ih (k0 + 1) (writeChunk buff (L * k0) (f x))
      (fun y hy => hf y (List.mem_cons_of_mem _ hy))
      (by rw [hb1, hb]; congr 1; omega)]
    have hAlen : (buff.take (L * k0)).length = L * k0 := by
      rw [List.length_take]
      have : L * k0 ≤ buff.length := by omega
      omega
    have heq : (k0 + 1) * L = L * k0 + L := by
      rw [Nat.add_mul, Nat.one_mul, Nat.mul_comm]
    have htk : (writeChunk buff (L * k0) (f x)).take ((k0 + 1) * L) =
        buff.take (k0 * L) ++ f x := by
      unfold writeChunk
      rw [heq, List.take_append_eq_append_take]
      have hACl : (buff.take (L * k0) ++ f x).length = L * k0 + L := by
        rw [List.length_append, hAlen, hfx]
      rw [List.take_of_length_le (le_of_eq hACl), hACl, Nat.sub_self, List.take_zero,
        List.append_nil, Nat.mul_comm k0 L]
    rw [htk, List.map_cons, List.flatten_cons, List.append_assoc]

theorem foldl_writeChunk_enum_join {α : Type} (L : Nat) (f : α → List ℚ)
    (xs : List α) (buff : List ℚ)
    (hf : ∀ x ∈ xs, (f x).length = L) (hb : buff.length = xs.length * L) :
    xs.enum.foldl (fun b x => writeChunk b (L * x.1) (f x.2)) buff =
      (xs.map f).flatten := by
  have h := foldl_writeChunk_join L f xs 0 buff hf (by simpa using hb)
  simpa [List.enum] using h

theorem join_get? (L : Nat) : ∀ (chunks : List (List ℚ)) (k r : Nat) (c : List ℚ),
    (∀ u ∈ chunks, u.length = L) → chunks.get? k = some c → r < L →
    chunks.flatten.get? (k * L + r) = c.get? r := by
  intro chunks
  induction chunks with
  | nil => intro k r c _ hk _; simp at hk
  | cons c0 rest ih =>
    intro k r c hlen hk hr
    have hc0 : c0.length = L := hlen c0 (List.mem_cons_self _ _)
    cases k with
    | zero =>
      simp only [List.get?] at hk
      cases hk
      simp only [List.flatten_cons, Nat.zero_mul, Nat.zero_add]
      exact List.get?_append (by omega)
    | succ k =>
      simp only [List.get?] at hk
      have harith : (k + 1) * L + r = c0.length + (k * L + r) := by
        rw [hc0, Nat.add_mul, Nat.one_mul]
        omega
      simp only [List.flatten_cons]
      rw [harith, List.get?_append_right (by omega)]
      have h2 : c0.length + (k * L + r) - c0.length = k * L + r := by omega
      rw [h2]
      exact ih k r c (fun u hu => hlen u (List.mem_cons_of_mem _ hu)) hk hr

theorem zipWith_get? (f : ℚ → ℚ → ℚ) : ∀ (u v : List ℚ) (r : Nat) (a b : ℚ),
    u.get? r = some a → v.get? r = some b →
    (List.zipWith f u v).get? r = some (f a b) := by
  intro u
  induction u with
  | nil => intro v r a b ha _; simp at ha
  | cons x u ih =>
    intro v r a b ha hb
    cases v with
    | nil => simp at hb
    | cons y v =>
      cases r with
      | zero =>
        simp only [List.get?] at ha hb
        cases ha; cases hb
        rfl
      | succ r =>
        simp only [List.get?] at ha hb
        simp only [List.zipWith, List.get?]
        exact ih v r a b ha hb


theorem sliceIndexR_eq : ∀ (ds cs : List Nat) (p : Nat),
    sliceIndexR ds cs p = p * clampFlatR ds cs := by
  intro ds
  induction ds with
  | nil => intro cs p; simp [sliceIndexR, clampFlatR]
  | cons d ds ih =>
    intro cs p
    cases cs with
    | nil => simp [sliceIndexR, clampFlatR]
    | cons c cs =>
      simp only [sliceIndexR, clampFlatR, ih cs (p * d)]
      split
      · ring
      · ring

theorem clampFlatR_lt : ∀ (ds cs : List Nat), (∀ d ∈ ds, 0 < d) →
    clampFlatR ds cs < ds.prod := by
  intro ds
  induction ds with
  | nil => intro cs _; simp [clampFlatR]
  | cons d ds ih =>
    intro cs hpos
    have hd : 0 < d := hpos d (by simp)
    have htail : ∀ x ∈ ds, 0 < x := fun x hx => hpos x (by simp [hx])
    cases cs with
    | nil =>
      simp only [clampFlatR, List.prod_cons]
      have := ih [] htail
      exact Nat.mul_pos hd (by omega)
    | cons c cs =>
      simp only [clampFlatR, List.prod_cons]
      have h3 := ih cs htail
      have h4 : d * (clampFlatR ds cs + 1) ≤ d * ds.prod :=
        Nat.mul_le_mul_left d (by omega)
      rw [Nat.mul_add, Nat.mul_one] at h4
      have h5 : (if c < d then c else 0) < d := by
        split
        · assumption
        · exact hd
      omega

theorem clampFlatR_append : ∀ (d1 c1 d2 c2 : List Nat), d1.length = c1.length →
    clampFlatR (d1 ++ d2) (c1 ++ c2) =
      clampFlatR d1 c1 + d1.prod * clampFlatR d2 c2 := by
  intro d1
  induction d1 with
  | nil =>
    intro c1 d2 c2 h
    have : c1 = [] := List.length_eq_zero.mp h.symm
    subst this
    simp [clampFlatR]
  | cons d ds ih =>
    intro c1 d2 c2 h
    cases c1 with
    | nil => simp at h
    | cons c cs =>
      simp only [List.cons_append, clampFlatR, List.prod_cons, List.append_eq]
      rw [ih cs d2 c2 (by simpa using h)]
      ring

theorem clampFlatR_ones : ∀ (n : Nat) (cs : List Nat),
    clampFlatR (List.replicate n 1) cs = 0 := by
  intro n
  induction n with
  | zero => intro cs; simp [clampFlatR]
  | succ n ih =>
    intro cs
    cases cs with
    | nil => simp [List.replicate, clampFlatR]
    | cons c cs =>
      simp only [List.replicate, clampFlatR, ih cs]
      split <;> omega

theorem flatR_append : ∀ (c1 d1 c2 d2 : List Nat), c1.length = d1.length →
    flatR (c1 ++ c2) (d1 ++ d2) = flatR c1 d1 + d1.prod * flatR c2 d2 := by
  intro c1
  induction c1 with
  | nil =>
    intro d1 c2 d2 h
    have : d1 = [] := List.length_eq_zero.mp h.symm
    subst this
    simp [flatR]
  | cons c cs ih =>
    intro d1 c2 d2 h
    cases d1 with
    | nil => simp at h
    | cons d ds =>
      simp only [List.cons_append, flatR, List.prod_cons, List.append_eq]
      rw [ih ds c2 d2 (by simpa using h)]
      ring

theorem InRangeR_append : ∀ (a b c d : List Nat), InRangeR a b → InRangeR c d →
    InRangeR (a ++ c) (b ++ d) := by
  intro a
  induction a with
  | nil =>
    intro b c d h1 h2
    cases b with
    | nil => simpa using h2
    | cons x xs => exact absurd h1 (by simp [InRangeR])
  | cons x xs ih =>
    intro b c d h1 h2
    cases b with
    | nil => exact absurd h1 (by simp [InRangeR])
    | cons y ys =>
      obtain ⟨hx, hxs⟩ := h1
      exact ⟨hx, ih ys c d hxs h2⟩

theorem InRangeR_reverse : ∀ (cs ds : List Nat), InRangeR cs ds →
    InRangeR cs.reverse ds.reverse := by
  intro cs
  induction cs with
  | nil =>
    intro ds h
    cases ds with
    | nil => trivial
    | cons d ds => exact absurd h (by simp [InRangeR])
  | cons c cs ih =>
    intro ds h
    cases ds with
    | nil => exact absurd h (by simp [InRangeR])
    | cons d ds =>
      obtain ⟨h1, h2⟩ := h
      simp only [List.reverse_cons]
      exact InRangeR_append _ _ _ _ (ih ds h2) ⟨h1, trivial⟩

theorem zipWith_clamp_id : ∀ (ds cs : List Nat), InRangeR cs ds →
    List.zipWith (fun d c => if d = 1 then 0 else c) ds cs = cs := by
  intro ds
  induction ds with
  | nil =>
    intro cs h
    cases cs with
    | nil => rfl
    | cons c cs => exact absurd h (by simp [InRangeR])
  | cons d ds ih =>
    intro cs h
    cases cs with
    | nil => exact absurd h (by simp [InRangeR])
    | cons c cs =>
      obtain ⟨h1, h2⟩ := h
      simp only [List.zipWith, ih cs h2]
      split
      next hd1 =>
        have hc0 : c = 0 := by omega
        rw [hc0]
      next => rfl

theorem inRange_of_all : ∀ (cs ds : List Nat), cs.length = ds.length →
    (List.zipWith (fun c d => decide (c < d)) cs ds).all id = true →
    InRangeR cs ds := by
  intro cs
  induction cs with
  | nil =>
    intro ds h _
    cases ds with
    | nil => trivial
    | cons d ds => simp at h
  | cons c cs ih =>
    intro ds h hb
    cases ds with
    | nil => simp at h
    | cons d ds =>
      simp only [List.zipWith, List.all_cons, Bool.and_eq_true, id] at hb
      exact ⟨by simpa using hb.1, ih ds (by simpa using h) hb.2⟩

theorem all_of_inRange : ∀ (cs ds : List Nat), InRangeR cs ds →
    (List.zipWith (fun c d => decide (c < d)) cs ds).all id = true := by
  intro cs
  induction cs with
  | nil => intro ds _; simp
  | cons c cs ih =>
    intro ds h
    cases ds with
    | nil => exact absurd h (by simp [InRangeR])
    | cons d ds =>
      obtain ⟨h1, h2⟩ := h
      simp only [List.zipWith, List.all_cons, Bool.and_eq_true, id]
      exact ⟨by simpa using h1, ih ds h2⟩

theorem ClampOk_of_bools : ∀ (ds es cs : List Nat), ds.length = es.length →
    cs.length = ds.length → (∀ d ∈ ds, 0 < d) →
    (List.zipWith (fun a b => a == b || a == 1 || b == 1) ds es).all id = true →
    (List.zipWith (fun c d => decide (c < d)) cs (List.zipWith max ds es)).all id = true →
    ClampOk ds cs := by
  intro ds
  induction ds with
  | nil =>
    intro es cs h1 h2 _ _ _
    cases es with
    | nil =>
      cases cs with
      | nil => trivial
      | cons c cs => simp at h2
    | cons e es => simp at h1
  | cons d ds ih =>
    intro es cs h1 h2 hpos hcb hib
    cases es with
    | nil => simp at h1
    | cons e es =>
      cases cs with
      | nil => simp at h2
      | cons c cs =>
        simp only [List.zipWith, List.all_cons, Bool.and_eq_true, id] at hcb hib
        refine ⟨?_, ih es cs (by simpa using h1) (by simpa using h2)
          (fun x hx => hpos x (by simp [hx])) hcb.2 hib.2⟩
        have hd : 0 < d := hpos d (by simp)
        have hde : d = e ∨ d = 1 ∨ e = 1 := by
          have := hcb.1
          simp only [Bool.or_eq_true, beq_iff_eq] at this
          tauto
        have hc : c < max d e := by simpa using hib.1
        rcases hde with h | h | h <;> omega

theorem ClampOk_append : ∀ (a b c d : List Nat), ClampOk a b → ClampOk c d →
    ClampOk (a ++ c) (b ++ d) := by
  intro a
  induction a with
  | nil =>
    intro b c d h1 h2
    cases b with
    | nil => simpa using h2
    | cons x xs => exact absurd h1 (by simp [ClampOk])
  | cons x xs ih =>
    intro b c d h1 h2
    cases b with
    | nil => exact absurd h1 (by simp [ClampOk])
    | cons y ys =>
      obtain ⟨hx, hxs⟩ := h1
      exact ⟨hx, ih ys c d hxs h2⟩

theorem ClampOk_reverse : ∀ (ds cs : List Nat), ClampOk ds cs →
    ClampOk ds.reverse cs.reverse := by
  intro ds
  induction ds with
  | nil =>
    intro cs h
    cases cs with
    | nil => trivial
    | cons c cs => exact absurd h (by simp [ClampOk])
  | cons d ds ih =>
    intro cs h
    cases cs with
    | nil => exact absurd h (by simp [ClampOk])
    | cons c cs =>
      obtain ⟨h1, h2⟩ := h
      simp only [List.reverse_cons]
      exact ClampOk_append _ _ _ _ (ih cs h2) ⟨h1, trivial⟩

theorem ClampOk_take : ∀ (ds cs : List Nat) (n : Nat), ClampOk ds cs →
    ClampOk (ds.take n) (cs.take n) := by
  intro ds
  induction ds with
  | nil =>
    intro cs n h
    cases cs with
    | nil => simp only [List.take_nil]; trivial
    | cons c cs => exact absurd h (by simp [ClampOk])
  | cons d ds ih =>
    intro cs n h
    cases cs with
    | nil => exact absurd h (by simp [ClampOk])
    | cons c cs =>
      obtain ⟨h1, h2⟩ := h
      cases n with
      | zero => simp only [List.take_zero]; trivial
      | succ n =>
        simp only [List.take_succ_cons]
        exact ⟨h1, ih cs n h2⟩

theorem ClampOk_drop : ∀ (ds cs : List Nat) (n : Nat), ClampOk ds cs →
    ClampOk (ds.drop n) (cs.drop n) := by
  intro ds
  induction ds with
  | nil =>
    intro cs n h
    cases cs with
    | nil => simp only [List.drop_nil]; trivial
    | cons c cs => exact absurd h (by simp [ClampOk])
  | cons d ds ih =>
    intro cs n h
    cases cs with
    | nil => exact absurd h (by simp [ClampOk])
    | cons c cs =>
      obtain ⟨h1, h2⟩ := h
      cases n with
      | zero => simpa only [List.drop_zero] using ⟨h1, h2⟩
      | succ n =>
        simp only [List.drop_succ_cons]
        exact ih cs n h2

theorem clampFlatR_eq_clamped : ∀ (ds cs : List Nat), ClampOk ds cs →
    clampFlatR ds cs =
      flatR (List.zipWith (fun d c => if d = 1 then 0 else c) ds cs) ds := by
  intro ds
  induction ds with
  | nil => intro cs _; simp [clampFlatR, flatR]
  | cons d ds ih =>
    intro cs h
    cases cs with
    | nil => exact absurd h (by simp [ClampOk])
    | cons c cs =>
      obtain ⟨h1, h2⟩ := h
      simp only [clampFlatR, List.zipWith, flatR]
      rw [ih cs h2]
      have hhead : (if c < d then c else 0) = (if d = 1 then 0 else c) := by
        rcases h1 with h | h <;> split_ifs <;> omega
      rw [hhead]

theorem clamped_inRange : ∀ (ds cs : List Nat), ClampOk ds cs →
    (∀ d ∈ ds, 0 < d) →
    InRangeR (List.zipWith (fun d c => if d = 1 then 0 else c) ds cs) ds := by
  intro ds
  induction ds with
  | nil => intro cs _ _; simp [InRangeR]
  | cons d ds ih =>
    intro cs h hpos
    cases cs with
    | nil => exact absurd h (by simp [ClampOk])
    | cons c cs =>
      obtain ⟨h1, h2⟩ := h
      have hd : 0 < d := hpos d (by simp)
      simp only [List.zipWith]
      refine ⟨?_, ih cs h2 (fun x hx => hpos x (by simp [hx]))⟩
      rcases h1 with h | h <;> split_ifs <;> omega

theorem InRangeR_take : ∀ (u : Nat) (cs ds : List Nat), InRangeR cs ds →
    InRangeR (cs.take u) (ds.take u) := by
  intro u
  induction u with
  | zero => intro cs ds _; simp only [List.take_zero]; trivial
  | succ u ih =>
    intro cs ds h
    cases cs with
    | nil =>
      cases ds with
      | nil => trivial
      | cons d ds => exact absurd h (by simp [InRangeR])
    | cons c cs =>
      cases ds with
      | nil => exact absurd h (by simp [InRangeR])
      | cons d ds =>
        obtain ⟨h1, h2⟩ := h
        simp only [List.take_succ_cons]
        exact ⟨h1, ih cs ds h2⟩

theorem InRangeR_drop : ∀ (u : Nat) (cs ds : List Nat), InRangeR cs ds →
    InRangeR (cs.drop u) (ds.drop u) := by
  intro u
  induction u with
  | zero => intro cs ds h; simpa only [List.drop_zero] using h
  | succ u ih =>
    intro cs ds h
    cases cs with
    | nil =>
      cases ds with
      | nil => trivial
      | cons d ds => exact absurd h (by simp [InRangeR])
    | cons c cs =>
      cases ds with
      | nil => exact absurd h (by simp [InRangeR])
      | cons d ds =>
        obtain ⟨h1, h2⟩ := h
        simp only [List.drop_succ_cons]
        exact ih cs ds h2

theorem pos_padShape (a b : List Nat) (h : ∀ d ∈ a, 0 < d) :
    ∀ d ∈ padShape a b, 0 < d := by
  intro d hd
  unfold padShape at hd
  rcases List.mem_append.mp hd with h1 | h1
  · have := List.eq_of_mem_replicate h1
    omega
  · exact h d h1

theorem pos_zipWith_max : ∀ (xs ys : List Nat), (∀ d ∈ xs, 0 < d) →
    ∀ d ∈ List.zipWith max xs ys, 0 < d := by
  intro xs
  induction xs with
  | nil => intro ys _ d hd; simp at hd
  | cons x xs ih =>
    intro ys h d hd
    cases ys with
    | nil => simp at hd
    | cons y ys =>
      simp only [List.zipWith, List.mem_cons] at hd
      rcases hd with hd | hd
      · have hx : 0 < x := h x (by simp)
        omega
      · exact ih ys (fun z hz => h z (by simp [hz])) d hd

theorem all_take {p : Bool → Bool} (l : List Bool) (n : Nat) (h : l.all p = true) :
    (l.take n).all p = true :=
  List.all_eq_true.mpr (fun x hx => List.all_eq_true.mp h x (List.take_subset _ _ hx))

theorem get_slice_len_eq_drop (shape : List Nat) (t : Nat) :
    get_slice_len shape t = (shape.drop (shape.length - t)).prod := by
  unfold get_slice_len
  split
  next h0 =>
    have ht0 : t = 0 := by simpa using h0
    rw [ht0, Nat.sub_zero, List.drop_length]
    rfl
  next => rfl

theorem slice_offset_bound (shape : List Nat) (t k : Nat) (cur : List Nat)
    (hpos : ∀ d ∈ shape, 0 < d) :
    compute_slice_index (List.replicate k 1 ++ shape.take (shape.length - t))
        (get_slice_len shape t) cur + get_slice_len shape t ≤ shape.prod := by
  set pre := List.replicate k 1 ++ shape.take (shape.length - t) with hpre
  set L := get_slice_len shape t with hL
  have hppos : ∀ d ∈ pre, 0 < d := by
    intro d hd
    rw [hpre] at hd
    rcases List.mem_append.mp hd with h1 | h1
    · have := List.eq_of_mem_replicate h1
      omega
    · exact hpos d (List.take_subset _ _ h1)
  have hclt : clampFlatR pre.reverse cur.reverse < pre.reverse.prod :=
    clampFlatR_lt pre.reverse cur.reverse
      (fun d hd => hppos d (List.mem_reverse.mp hd))
  have hcsi : compute_slice_index pre L cur =
      L * clampFlatR pre.reverse cur.reverse := by
    unfold compute_slice_index
    exact sliceIndexR_eq _ _ _
  have hQ : pre.reverse.prod = (shape.take (shape.length - t)).prod := by
    rw [List.prod_reverse, hpre, List.prod_append, List.prod_replicate, one_pow,
      Nat.one_mul]
  have hLd : L = (shape.drop (shape.length - t)).prod := get_slice_len_eq_drop shape t
  have hmul : L * (clampFlatR pre.reverse cur.reverse + 1) ≤ L * pre.reverse.prod :=
    Nat.mul_le_mul_left L (by omega)
  rw [Nat.mul_add, Nat.mul_one] at hmul
  have hprod : L * pre.reverse.prod = shape.prod := by
    rw [hQ, hLd, Nat.mul_comm]
    exact List.prod_take_mul_prod_drop shape (shape.length - t)
  rw [hcsi]
  omega

theorem check_shapes_broadcast_prefix (s1 s2 : List Nat) (t : Nat)
    (h : check_shapes_broadcast s1 s2 = true) (h1 : t ≤ s1.length) (h2 : t ≤ s2.length) :
    check_shapes_broadcast (s1.take (s1.length - t)) (s2.take (s2.length - t)) = true := by
  unfold check_shapes_broadcast at h ⊢
  have hl1 : (s1.take (s1.length - t)).length = s1.length - t := by
    rw [List.length_take]
    omega
  have hl2 : (s2.take (s2.length - t)).length = s2.length - t := by
    rw [List.length_take]
    omega
  have e1 : padShape (s1.take (s1.length - t)) (s2.take (s2.length - t)) =
      (padShape s1 s2).take (max s1.length s2.length - t) := by
    rw [padShape_take s1 s2 t h1]
    unfold padShape
    rw [hl1, hl2]
    congr 1
    congr 1
    omega
  have e2 : padShape (s2.take (s2.length - t)) (s1.take (s1.length - t)) =
      (padShape s2 s1).take (max s1.length s2.length - t) := by
    rw [Nat.max_comm, padShape_take s2 s1 t h2]
    unfold padShape
    rw [hl1, hl2]
    congr 1
    congr 1
    omega
  rw [e1, e2, ← List.take_zipWith]
  exact all_take _ _ h

theorem get_slice_len_eq_out2 (s1 s2 s : List Nat)
    (h : get_shape_after_broadcast s1 s2 = some s) :
    get_slice_len s2 (trailingDims s1 s2) =
      ((s.drop (s.length - trailingDims s1 s2)).prod) := by
  set t := trailingDims s1 s2 with hts
  have hrev : s.reverse.take t = s2.reverse.take t :=
    (srev_take_trailing s1 s2 s h).trans (trailing_take_eq s1 s2)
  unfold get_slice_len
  split
  next ht0 =>
    have ht0' : t = 0 := by simpa using ht0
    rw [ht0', Nat.sub_zero, List.drop_length]
    rfl
  next =>
    have h1 : s2.drop (s2.length - t) = (s2.reverse.take t).reverse := by
      rw [List.take_reverse, List.reverse_reverse]
    have h2 : s.drop (s.length - t) = (s.reverse.take t).reverse := by
      rw [List.take_reverse, List.reverse_reverse]
    rw [h1, h2, hrev]

theorem broadcastOffsets_eq (s1 s2 : List Nat) (t : Nat)
    (ht1 : t ≤ s1.length) (ht2 : t ≤ s2.length)
    (hcb : check_shapes_broadcast (s1.take (s1.length - t))
      (s2.take (s2.length - t)) = true) :
    broadcastOffsets s1 s2 t =
      some ((if (List.zipWith max (get_padded_broadcast_shapes s1 s2 t).1
            (get_padded_broadcast_shapes s1 s2 t).2).isEmpty then [([] : List Nat)]
          else runIdx (List.zipWith max (get_padded_broadcast_shapes s1 s2 t).1
              (get_padded_broadcast_shapes s1 s2 t).2)
            (List.replicate (List.zipWith max (get_padded_broadcast_shapes s1 s2 t).1
              (get_padded_broadcast_shapes s1 s2 t).2).length 0)
            (List.zipWith max (get_padded_broadcast_shapes s1 s2 t).1
              (get_padded_broadcast_shapes s1 s2 t).2).prod).map
        (fun cur => (compute_slice_index (get_padded_broadcast_shapes s1 s2 t).1
            (get_slice_len s1 t) cur,
          compute_slice_index (get_padded_broadcast_shapes s1 s2 t).2
            (get_slice_len s2 t) cur))) := by
  unfold broadcastOffsets
  rw [if_pos (by simp only [Bool.and_eq_true, decide_eq_true_eq]; omega)]
  dsimp only
  rw [if_pos hcb]

theorem idxs_enum (res : List Nat) (hpos : ∀ d ∈ res, 0 < d) :
    (if res.isEmpty then [([] : List Nat)]
      else runIdx res (List.replicate res.length 0) res.prod) =
      (List.range res.prod).map (fun k => (unflatR res.reverse k).reverse) := by
  split
  next h =>
    have hres : res = [] := by simpa using h
    subst hres
    simp [unflatR, List.range_succ]
  next h =>
    have hres : res ≠ [] := by simpa using h
    exact runIdx_enum res hres hpos

theorem side_spec (shape s i : List Nat) (t : Nat)
    (hposS : ∀ d ∈ shape, 0 < d)
    (ht : t ≤ shape.length)
    (hlen : shape.length ≤ s.length)
    (hil : i.length = s.length)
    (hinR : InRangeR i s)
    (htrail : s.drop (s.length - t) = shape.drop (shape.length - t))
    (hok : ClampOk (List.replicate (s.length - shape.length) 1 ++
      shape.take (shape.length - t)) (i.take (s.length - t))) :
    checkIndex shape (specBroadcastIndex shape i) = true ∧
    compute_data_index shape (specBroadcastIndex shape i) =
      compute_slice_index (List.replicate (s.length - shape.length) 1 ++
          shape.take (shape.length - t)) (get_slice_len shape t)
        (i.take (s.length - t)) +
      flatR (i.drop (s.length - t)).reverse (s.drop (s.length - t)).reverse := by
  have hiD : specBroadcastIndex shape i =
      List.zipWith (fun d c => if d = 1 then 0 else c) shape
        (i.drop (s.length - shape.length)) := by
    unfold specBroadcastIndex
    rw [hil]
  have hidl : (i.drop (s.length - shape.length)).length = shape.length := by
    rw [List.length_drop, hil]
    omega
  have hlApre : (shape.take (shape.length - t)).length = shape.length - t := by
    rw [List.length_take]
    omega
  have hliApre : ((i.drop (s.length - shape.length)).take (shape.length - t)).length =
      shape.length - t := by
    rw [List.length_take, hidl]
    omega
  have hitail : (i.drop (s.length - shape.length)).drop (shape.length - t) =
      i.drop (s.length - t) := by
    rw [List.drop_drop]
    congr 1
    omega
  have hzip : List.zipWith (fun d c => if d = 1 then 0 else c) shape
      (i.drop (s.length - shape.length)) =
      List.zipWith (fun d c => if d = 1 then 0 else c) (shape.take (shape.length - t))
        ((i.drop (s.length - shape.length)).take (shape.length - t)) ++
      List.zipWith (fun d c => if d = 1 then 0 else c) (shape.drop (shape.length - t))
        ((i.drop (s.length - shape.length)).drop (shape.length - t)) := by
    rw [← List.zipWith_append _ _ _ _ _ (by rw [hlApre, hliApre]),
      List.take_append_drop, List.take_append_drop]
  have hInTail : InRangeR (i.drop (s.length - t)) (s.drop (s.length - t)) :=
    InRangeR_drop _ _ _ hinR
  have hInTail' : InRangeR (i.drop (s.length - t)) (shape.drop (shape.length - t)) := by
    rw [← htrail]
    exact hInTail
  have htailid : List.zipWith (fun d c => if d = 1 then 0 else c)
      (shape.drop (shape.length - t))
      ((i.drop (s.length - shape.length)).drop (shape.length - t)) =
      i.drop (s.length - t) := by
    rw [hitail]
    exact zipWith_clamp_id _ _ hInTail'
  have hsplit : specBroadcastIndex shape i =
      List.zipWith (fun d c => if d = 1 then 0 else c) (shape.take (shape.length - t))
        ((i.drop (s.length - shape.length)).take (shape.length - t)) ++
      i.drop (s.length - t) := by
    rw [hiD, hzip, htailid]
  have hrepl : (List.replicate (s.length - shape.length) (1 : Nat)).length =
      s.length - shape.length := List.length_replicate _ _
  have hClampPre : ClampOk (shape.take (shape.length - t))
      ((i.drop (s.length - shape.length)).take (shape.length - t)) := by
    have hdrop := ClampOk_drop _ _ (s.length - shape.length) hok
    have hdl : (List.replicate (s.length - shape.length) (1 : Nat) ++
        shape.take (shape.length - t)).drop (s.length - shape.length) =
        shape.take (shape.length - t) := by
      have h0 := List.drop_left (List.replicate (s.length - shape.length) (1 : Nat))
        (shape.take (shape.length - t))
      rwa [List.length_replicate] at h0
    have hip : (i.take (s.length - t)).drop (s.length - shape.length) =
        (i.drop (s.length - shape.length)).take (shape.length - t) := by
      rw [List.drop_take]
      congr 1
      omega
    rw [hdl, hip] at hdrop
    exact hdrop
  have hposApre : ∀ d ∈ shape.take (shape.length - t), 0 < d :=
    fun d hd => hposS d (List.take_subset _ _ hd)
  have hInPre : InRangeR (List.zipWith (fun d c => if d = 1 then 0 else c)
      (shape.take (shape.length - t))
      ((i.drop (s.length - shape.length)).take (shape.length - t)))
      (shape.take (shape.length - t)) :=
    clamped_inRange _ _ hClampPre hposApre
  have hInFull : InRangeR (specBroadcastIndex shape i) shape := by
    rw [hsplit]
    conv_rhs => rw [← List.take_append_drop (shape.length - t) shape]
    exact InRangeR_append _ _ _ _ hInPre hInTail'
  have hspeclen : (specBroadcastIndex shape i).length = shape.length :=
    InRangeR_length _ _ hInFull
  constructor
  · unfold checkIndex
    simp only [Bool.and_eq_true]
    exact ⟨by simp [hspeclen], all_of_inRange _ _ hInFull⟩
  · unfold compute_data_index compute_slice_index
    rw [hsplit, List.reverse_append]
    have hshaperev : shape.reverse =
        (shape.drop (shape.length - t)).reverse ++
          (shape.take (shape.length - t)).reverse := by
      conv_lhs => rw [← List.take_append_drop (shape.length - t) shape]
      rw [List.reverse_append]
    rw [hshaperev]
    rw [flatR_append _ _ _ _ (by
      rw [List.length_reverse, List.length_reverse, List.length_drop,
        List.length_drop, hil]
      omega)]
    have hclamprev : ClampOk (shape.take (shape.length - t)).reverse
        ((i.drop (s.length - shape.length)).take (shape.length - t)).reverse :=
      ClampOk_reverse _ _ hClampPre
    have hprev : (List.replicate (s.length - shape.length) (1 : Nat) ++
        shape.take (shape.length - t)).reverse =
        (shape.take (shape.length - t)).reverse ++
          List.replicate (s.length - shape.length) 1 := by
      rw [List.reverse_append, List.reverse_replicate]
    have hiprev : (i.take (s.length - t)).reverse =
        ((i.drop (s.length - shape.length)).take (shape.length - t)).reverse ++
          ((i.take (s.length - t)).take (s.length - shape.length)).reverse := by
      conv_lhs => rw [← List.take_append_drop (s.length - shape.length)
        (i.take (s.length - t))]
      rw [List.reverse_append]
      congr 2
      rw [List.drop_take]
      congr 1
      omega
    have hslice : sliceIndexR (List.replicate (s.length - shape.length) 1 ++
        shape.take (shape.length - t)).reverse (i.take (s.length - t)).reverse
        (get_slice_len shape t) =
        get_slice_len shape t *
          flatR (List.zipWith (fun d c => if d = 1 then 0 else c)
            (shape.take (shape.length - t))
            ((i.drop (s.length - shape.length)).take (shape.length - t))).reverse
          (shape.take (shape.length - t)).reverse := by
      rw [sliceIndexR_eq, hprev, hiprev,
        clampFlatR_append _ _ _ _ (by rw [List.length_reverse, List.length_reverse,
          hlApre, hliApre]),
        clampFlatR_ones, Nat.mul_zero, Nat.add_zero,
        clampFlatR_eq_clamped _ _ hclamprev,
        List.reverse_zipWith (by rw [hlApre, hliApre])]
    rw [hslice, htrail]
    have hLrev : (shape.drop (shape.length - t)).reverse.prod = get_slice_len shape t := by
      rw [List.prod_reverse, get_slice_len_eq_drop]
    rw [hLrev]
    ring

theorem compute_elementwise_data (a b : Array) (f : ℚ → ℚ → ℚ) (s : List Nat)
    (offs : List (Nat × Nat))
    (hs : get_shape_after_broadcast a.shape b.shape = some s)
    (hoff : broadcastOffsets a.shape b.shape (trailingDims a.shape b.shape) = some offs) :
    compute_elementwise_with_other_array a b f = some
      { shape := s,
        data := offs.enum.foldl
          (fun buff x => writeChunk buff
            ((s.drop (s.length - trailingDims a.shape b.shape)).prod * x.1)
            (List.zipWith f
              ((a.data.drop x.2.1).take
                (get_slice_len a.shape (trailingDims a.shape b.shape)))
              ((b.data.drop x.2.2).take
                (get_slice_len b.shape (trailingDims a.shape b.shape)))))
          (List.replicate s.prod 0) } := by
  unfold compute_elementwise_with_other_array
  simp only [hs, hoff]

theorem offs_enum_form (s1 s2 s : List Nat) (hs : get_shape_after_broadcast s1 s2 = some s)
    (hpos1 : ∀ d ∈ s1, 0 < d) :
    broadcastOffsets s1 s2 (trailingDims s1 s2) =
      some ((List.range ((s.take (s.length - trailingDims s1 s2)).prod)).map
        (fun k =>
          (compute_slice_index (get_padded_broadcast_shapes s1 s2 (trailingDims s1 s2)).1
              (get_slice_len s1 (trailingDims s1 s2))
              ((unflatR (s.take (s.length - trailingDims s1 s2)).reverse k).reverse),
           compute_slice_index (get_padded_broadcast_shapes s1 s2 (trailingDims s1 s2)).2
              (get_slice_len s2 (trailingDims s1 s2))
              ((unflatR (s.take (s.length - trailingDims s1 s2)).reverse k).reverse)))) := by
  have ht1 := trailingDims_le_left s1 s2
  have ht2 := trailingDims_le_right s1 s2
  have hcheck := (broadcast_shape_some s1 s2 s hs).2
  have hcb := check_shapes_broadcast_prefix s1 s2 _ hcheck ht1 ht2
  rw [broadcastOffsets_eq s1 s2 _ ht1 ht2 hcb]
  have hres := res_eq_take s1 s2 s hs
  have hposs : ∀ d ∈ s, 0 < d := by
    rw [(broadcast_shape_some s1 s2 s hs).1]
    exact pos_zipWith_max _ _ (pos_padShape _ _ hpos1)
  have hrespos : ∀ d ∈ List.zipWith max
      (get_padded_broadcast_shapes s1 s2 (trailingDims s1 s2)).1
      (get_padded_broadcast_shapes s1 s2 (trailingDims s1 s2)).2, 0 < d := by
    rw [hres]
    exact fun d hd => hposs d (List.take_subset _ _ hd)
  rw [idxs_enum (List.zipWith max
      (get_padded_broadcast_shapes s1 s2 (trailingDims s1 s2)).1
      (get_padded_broadcast_shapes s1 s2 (trailingDims s1 s2)).2) hrespos]
  rw [hres, List.map_map]
  rfl

theorem clampOk_pre (s1 s2 s i : List Nat)
    (hs : get_shape_after_broadcast s1 s2 = some s)
    (hpos1 : ∀ d ∈ s1, 0 < d)
    (hil : i.length = s.length)
    (hinR : InRangeR i s) :
    ClampOk (List.replicate (s.length - s1.length) 1 ++
        s1.take (s1.length - trailingDims s1 s2))
      (i.take (s.length - trailingDims s1 s2)) := by
  have ht1 := trailingDims_le_left s1 s2
  have ht2 := trailingDims_le_right s1 s2
  have hslen := broadcast_shape_length s1 s2 s hs
  have hcheck := (broadcast_shape_some s1 s2 s hs).2
  have hresN : List.zipWith max
      (List.replicate (max s1.length s2.length - s1.length) 1 ++
        s1.take (s1.length - trailingDims s1 s2))
      (List.replicate (max s1.length s2.length - s2.length) 1 ++
        s2.take (s2.length - trailingDims s1 s2)) =
      s.take (s.length - trailingDims s1 s2) := by
    have h0 := res_eq_take s1 s2 s hs
    rw [get_padded_norm] at h0
    exact h0
  have hp1 : List.replicate (max s1.length s2.length - s1.length) 1 ++
      s1.take (s1.length - trailingDims s1 s2) =
      (padShape s1 s2).take (max s1.length s2.length - trailingDims s1 s2) :=
    (padShape_take s1 s2 _ ht1).symm
  have hp2 : List.replicate (max s1.length s2.length - s2.length) 1 ++
      s2.take (s2.length - trailingDims s1 s2) =
      (padShape s2 s1).take (max s1.length s2.length - trailingDims s1 s2) := by
    rw [Nat.max_comm s1.length s2.length]
    exact (padShape_take s2 s1 _ ht2).symm
  rw [hslen]
  apply ClampOk_of_bools _
    (List.replicate (max s1.length s2.length - s2.length) 1 ++
      s2.take (s2.length - trailingDims s1 s2))
  · rw [List.length_append, List.length_append, List.length_replicate,
      List.length_replicate, List.length_take, List.length_take]
    omega
  · rw [List.length_take, List.length_append, List.length_replicate,
      List.length_take, hil, hslen]
    omega
  · intro d hd
    rcases List.mem_append.mp hd with h1 | h1
    · have := List.eq_of_mem_replicate h1
      omega
    · exact hpos1 d (List.take_subset _ _ h1)
  · rw [hp1, hp2, ← List.take_zipWith]
    apply all_take
    unfold check_shapes_broadcast at hcheck
    exact hcheck
  · rw [hresN, hslen]
    apply all_of_inRange
    exact InRangeR_take _ i s hinR

theorem zipWith_cb_all_swap : ∀ (xs ys : List Nat),
    (List.zipWith (fun a b => a == b || a == 1 || b == 1) xs ys).all id = true →
    (List.zipWith (fun a b => a == b || a == 1 || b == 1) ys xs).all id = true := by
  intro xs
  induction xs with
  | nil => intro ys _; cases ys <;> simp
  | cons x xs ih =>
    intro ys h
    cases ys with
    | nil => simp
    | cons y ys =>
      simp only [List.zipWith, List.all_cons, Bool.and_eq_true, id] at h ⊢
      refine ⟨?_, ih ys h.2⟩
      have := h.1
      simp only [Bool.or_eq_true, beq_iff_eq] at this ⊢
      tauto

theorem zipWith_max_comm : ∀ (xs ys : List Nat),
    List.zipWith max xs ys = List.zipWith max ys xs := by
  intro xs
  induction xs with
  | nil => intro ys; cases ys <;> rfl
  | cons x xs ih =>
    intro ys
    cases ys with
    | nil => rfl
    | cons y ys => simp only [List.zipWith, ih ys, Nat.max_comm]

theorem check_shapes_broadcast_symm (s1 s2 : List Nat)
    (h : check_shapes_broadcast s1 s2 = true) :
    check_shapes_broadcast s2 s1 = true := by
  unfold check_shapes_broadcast at h ⊢
  exact zipWith_cb_all_swap _ _ h

theorem drop_trailing_eq1 (s1 s2 s : List Nat)
    (h : get_shape_after_broadcast s1 s2 = some s) :
    s.drop (s.length - trailingDims s1 s2) =
      s1.drop (s1.length - trailingDims s1 s2) := by
  have hrev := srev_take_trailing s1 s2 s h
  have h1 : s.drop (s.length - trailingDims s1 s2) =
      (s.reverse.take (trailingDims s1 s2)).reverse := by
    rw [List.take_reverse, List.reverse_reverse]
  have h2 : s1.drop (s1.length - trailingDims s1 s2) =
      (s1.reverse.take (trailingDims s1 s2)).reverse := by
    rw [List.take_reverse, List.reverse_reverse]
  rw [h1, h2, hrev]

theorem drop_trailing_eq2 (s1 s2 s : List Nat)
    (h : get_shape_after_broadcast s1 s2 = some s) :
    s.drop (s.length - trailingDims s1 s2) =
      s2.drop (s2.length - trailingDims s1 s2) := by
  have hrev := (srev_take_trailing s1 s2 s h).trans (trailing_take_eq s1 s2)
  have h1 : s.drop (s.length - trailingDims s1 s2) =
      (s.reverse.take (trailingDims s1 s2)).reverse := by
    rw [List.take_reverse, List.reverse_reverse]
  have h2 : s2.drop (s2.length - trailingDims s1 s2) =
      (s2.reverse.take (trailingDims s1 s2)).reverse := by
    rw [List.take_reverse, List.reverse_reverse]
  rw [h1, h2, hrev]

theorem clampOk_pre2 (s1 s2 s i : List Nat)
    (hs : get_shape_after_broadcast s1 s2 = some s)
    (hpos2 : ∀ d ∈ s2, 0 < d)
    (hil : i.length = s.length)
    (hinR : InRangeR i s) :
    ClampOk (List.replicate (s.length - s2.length) 1 ++
        s2.take (s2.length - trailingDims s1 s2))
      (i.take (s.length - trailingDims s1 s2)) := by
  have ht1 := trailingDims_le_left s1 s2
  have ht2 := trailingDims_le_right s1 s2
  have hslen := broadcast_shape_length s1 s2 s hs
  have hcheck := (broadcast_shape_some s1 s2 s hs).2
  have hresN : List.zipWith max
      (List.replicate (max s1.length s2.length - s1.length) 1 ++
        s1.take (s1.length - trailingDims s1 s2))
      (List.replicate (max s1.length s2.length - s2.length) 1 ++
        s2.take (s2.length - trailingDims s1 s2)) =
      s.take (s.length - trailingDims s1 s2) := by
    have h0 := res_eq_take s1 s2 s hs
    rw [get_padded_norm] at h0
    exact h0
  have hp1 : List.replicate (max s1.length s2.length - s1.length) 1 ++
      s1.take (s1.length - trailingDims s1 s2) =
      (padShape s1 s2).take (max s1.length s2.length - trailingDims s1 s2) :=
    (padShape_take s1 s2 _ ht1).symm
  have hp2 : List.replicate (max s1.length s2.length - s2.length) 1 ++
      s2.take (s2.length - trailingDims s1 s2) =
      (padShape s2 s1).take (max s1.length s2.length - trailingDims s1 s2) := by
    rw [Nat.max_comm s1.length s2.length]
    exact (padShape_take s2 s1 _ ht2).symm
  rw [hslen]
  apply ClampOk_of_bools _
    (List.replicate (max s1.length s2.length - s1.length) 1 ++
      s1.take (s1.length - trailingDims s1 s2))
  · rw [List.length_append, List.length_append, List.length_replicate,
      List.length_replicate, List.length_take, List.length_take]
    omega
  · rw [List.length_take, List.length_append, List.length_replicate,
      List.length_take, hil, hslen]
    omega
  · intro d hd
    rcases List.mem_append.mp hd with h1 | h1
    · have := List.eq_of_mem_replicate h1
      omega
    · exact hpos2 d (List.take_subset _ _ h1)
  · rw [hp2, hp1, ← List.take_zipWith]
    apply all_take
    apply zipWith_cb_all_swap
    unfold check_shapes_broadcast at hcheck
    exact hcheck
  · rw [zipWith_max_comm, hresN, hslen]
    apply all_of_inRange
    exact InRangeR_take _ i s hinR

theorem offs_norm_form (s1 s2 s : List Nat) (hs : get_shape_after_broadcast s1 s2 = some s)
    (hpos1 : ∀ d ∈ s1, 0 < d) :
    broadcastOffsets s1 s2 (trailingDims s1 s2) =
      some ((List.range ((s.take (s.length - trailingDims s1 s2)).prod)).map
        (fun k =>
          (compute_slice_index (List.replicate (s.length - s1.length) 1 ++
              s1.take (s1.length - trailingDims s1 s2))
              (get_slice_len s1 (trailingDims s1 s2))
              ((unflatR (s.take (s.length - trailingDims s1 s2)).reverse k).reverse),
           compute_slice_index (List.replicate (s.length - s2.length) 1 ++
              s2.take (s2.length - trailingDims s1 s2))
              (get_slice_len s2 (trailingDims s1 s2))
              ((unflatR (s.take (s.length - trailingDims s1 s2)).reverse k).reverse)))) := by
  rw [offs_enum_form s1 s2 s hs hpos1, get_padded_norm]
  dsimp only
  rw [← broadcast_shape_length s1 s2 s hs]

theorem element_spec (A B : Array) (f : ℚ → ℚ → ℚ) (s i : List Nat)
    (hA : A.wellFormed) (hB : B.wellFormed)
    (hs : get_shape_after_broadcast A.shape B.shape = some s)
    (hi : checkIndex s i = true) :
    ∃ qa qb, A.i (specBroadcastIndex A.shape i) = some qa ∧
      B.i (specBroadcastIndex B.shape i) = some qb ∧
      ((((List.range ((s.take (s.length - trailingDims A.shape B.shape)).prod)).map
        (fun k =>
          (compute_slice_index (List.replicate (s.length - A.shape.length) 1 ++
              A.shape.take (A.shape.length - trailingDims A.shape B.shape))
              (get_slice_len A.shape (trailingDims A.shape B.shape))
              ((unflatR (s.take (s.length - trailingDims A.shape B.shape)).reverse
                k).reverse),
           compute_slice_index (List.replicate (s.length - B.shape.length) 1 ++
              B.shape.take (B.shape.length - trailingDims A.shape B.shape))
              (get_slice_len B.shape (trailingDims A.shape B.shape))
              ((unflatR (s.take (s.length - trailingDims A.shape B.shape)).reverse
                k).reverse)))).map
        (fun o => List.zipWith f
          ((A.data.drop o.1).take (get_slice_len A.shape (trailingDims A.shape B.shape)))
          ((B.data.drop o.2).take
            (get_slice_len B.shape (trailingDims A.shape B.shape))))).flatten).get?
        (compute_data_index s i) = some (f qa qb) := by
  have hi2 := hi
  unfold checkIndex at hi2
  simp only [Bool.and_eq_true] at hi2
  have hil : i.length = s.length := by simpa using hi2.1
  have hinR : InRangeR i s := inRange_of_all i s hil hi2.2
  have hslen := broadcast_shape_length A.shape B.shape s hs
  have ht1 := trailingDims_le_left A.shape B.shape
  have ht2 := trailingDims_le_right A.shape B.shape
  have hlenA : A.shape.length ≤ s.length := by omega
  have hlenB : B.shape.length ≤ s.length := by omega
  have htA := drop_trailing_eq1 A.shape B.shape s hs
  have htB := drop_trailing_eq2 A.shape B.shape s hs
  have hokA := clampOk_pre A.shape B.shape s i hs hA.1 hil hinR
  have hokB := clampOk_pre2 A.shape B.shape s i hs hB.1 hil hinR
  have hsideA := side_spec A.shape s i (trailingDims A.shape B.shape)
    hA.1 ht1 hlenA hil hinR htA hokA
  have hsideB := side_spec B.shape s i (trailingDims A.shape B.shape)
    hB.1 ht2 hlenB hil hinR htB hokB
  have hlen1 : get_slice_len A.shape (trailingDims A.shape B.shape) =
      (s.drop (s.length - trailingDims A.shape B.shape)).prod :=
    get_slice_len_eq_out A.shape B.shape s hs
  have hlen2 : get_slice_len B.shape (trailingDims A.shape B.shape) =
      (s.drop (s.length - trailingDims A.shape B.shape)).prod :=
    get_slice_len_eq_out2 A.shape B.shape s hs
  have hInPreR : InRangeR (i.take (s.length - trailingDims A.shape B.shape)).reverse
      (s.take (s.length - trailingDims A.shape B.shape)).reverse :=
    InRangeR_reverse _ _ (InRangeR_take _ _ _ hinR)
  have hInTailR : InRangeR (i.drop (s.length - trailingDims A.shape B.shape)).reverse
      (s.drop (s.length - trailingDims A.shape B.shape)).reverse :=
    InRangeR_reverse _ _ (InRangeR_drop _ _ _ hinR)
  have hk : flatR (i.take (s.length - trailingDims A.shape B.shape)).reverse
      (s.take (s.length - trailingDims A.shape B.shape)).reverse <
      (s.take (s.length - trailingDims A.shape B.shape)).prod := by
    have h0 := flatR_lt _ _ hInPreR
    rwa [List.prod_reverse] at h0
  have hr : flatR (i.drop (s.length - trailingDims A.shape B.shape)).reverse
      (s.drop (s.length - trailingDims A.shape B.shape)).reverse <
      (s.drop (s.length - trailingDims A.shape B.shape)).prod := by
    have h0 := flatR_lt _ _ hInTailR
    rwa [List.prod_reverse] at h0
  have hcurk : (unflatR (s.take (s.length - trailingDims A.shape B.shape)).reverse
      (flatR (i.take (s.length - trailingDims A.shape B.shape)).reverse
        (s.take (s.length - trailingDims A.shape B.shape)).reverse)).reverse =
      i.take (s.length - trailingDims A.shape B.shape) := by
    rw [unflatR_flatR _ _ hInPreR, List.reverse_reverse]
  have hcdi : compute_data_index s i =
      flatR (i.take (s.length - trailingDims A.shape B.shape)).reverse
        (s.take (s.length - trailingDims A.shape B.shape)).reverse *
        (s.drop (s.length - trailingDims A.shape B.shape)).prod +
      flatR (i.drop (s.length - trailingDims A.shape B.shape)).reverse
        (s.drop (s.length - trailingDims A.shape B.shape)).reverse := by
    unfold compute_data_index
    conv_lhs => rw [← List.take_append_drop (s.length - trailingDims A.shape B.shape) i]
    rw [List.reverse_append]
    have hsrev : s.reverse =
        (s.drop (s.length - trailingDims A.shape B.shape)).reverse ++
          (s.take (s.length - trailingDims A.shape B.shape)).reverse := by
      conv_lhs => rw [← List.take_append_drop (s.length - trailingDims A.shape B.shape) s]
      rw [List.reverse_append]
    rw [hsrev, flatR_append _ _ _ _ (by
      rw [List.length_reverse, List.length_reverse, List.length_drop,
        List.length_drop, hil])]
    rw [List.prod_reverse]
    ring
  have hb1 := slice_offset_bound A.shape (trailingDims A.shape B.shape)
    (s.length - A.shape.length) (i.take (s.length - trailingDims A.shape B.shape)) hA.1
  have hb2 := slice_offset_bound B.shape (trailingDims A.shape B.shape)
    (s.length - B.shape.length) (i.take (s.length - trailingDims A.shape B.shape)) hB.1
  have hidx1 : compute_slice_index (List.replicate (s.length - A.shape.length) 1 ++
      A.shape.take (A.shape.length - trailingDims A.shape B.shape))
      (get_slice_len A.shape (trailingDims A.shape B.shape))
      (i.take (s.length - trailingDims A.shape B.shape)) +
      flatR (i.drop (s.length - trailingDims A.shape B.shape)).reverse
        (s.drop (s.length - trailingDims A.shape B.shape)).reverse <
      A.data.length := by
    rw [hA.2]
    omega
  have hidx2 : compute_slice_index (List.replicate (s.length - B.shape.length) 1 ++
      B.shape.take (B.shape.length - trailingDims A.shape B.shape))
      (get_slice_len B.shape (trailingDims A.shape B.shape))
      (i.take (s.length - trailingDims A.shape B.shape)) +
      flatR (i.drop (s.length - trailingDims A.shape B.shape)).reverse
        (s.drop (s.length - trailingDims A.shape B.shape)).reverse <
      B.data.length := by
    rw [hB.2]
    omega
  refine ⟨A.data.get ⟨_, hidx1⟩, B.data.get ⟨_, hidx2⟩, ?_, ?_, ?_⟩
  · unfold Array.i
    rw [if_pos hsideA.1, hsideA.2]
    exact List.get?_eq_get hidx1
  · unfold Array.i
    rw [if_pos hsideB.1, hsideB.2]
    exact List.get?_eq_get hidx2
  · rw [hcdi]
    have hcget : (((List.range ((s.take (s.length -
        trailingDims A.shape B.shape)).prod)).map
        (fun k =>
          (compute_slice_index (List.replicate (s.length - A.shape.length) 1 ++
              A.shape.take (A.shape.length - trailingDims A.shape B.shape))
              (get_slice_len A.shape (trailingDims A.shape B.shape))
              ((unflatR (s.take (s.length - trailingDims A.shape B.shape)).reverse
                k).reverse),
           compute_slice_index (List.replicate (s.length - B.shape.length) 1 ++
              B.shape.take (B.shape.length - trailingDims A.shape B.shape))
              (get_slice_len B.shape (trailingDims A.shape B.shape))
              ((unflatR (s.take (s.length - trailingDims A.shape B.shape)).reverse
                k).reverse)))).map
        (fun o => List.zipWith f
          ((A.data.drop o.1).take
            (get_slice_len A.shape (trailingDims A.shape B.shape)))
          ((B.data.drop o.2).take
            (get_slice_len B.shape (trailingDims A.shape B.shape))))).get?
        (flatR (i.take (s.length - trailingDims A.shape B.shape)).reverse
          (s.take (s.length - trailingDims A.shape B.shape)).reverse) =
        some (List.zipWith f
          ((A.data.drop (compute_slice_index
              (List.replicate (s.length - A.shape.length) 1 ++
                A.shape.take (A.shape.length - trailingDims A.shape B.shape))
              (get_slice_len A.shape (trailingDims A.shape B.shape))
              (i.take (s.length - trailingDims A.shape B.shape)))).take
            (get_slice_len A.shape (trailingDims A.shape B.shape)))
          ((B.data.drop (compute_slice_index
              (List.replicate (s.length - B.shape.length) 1 ++
                B.shape.take (B.shape.length - trailingDims A.shape B.shape))
              (get_slice_len B.shape (trailingDims A.shape B.shape))
              (i.take (s.length - trailingDims A.shape B.shape)))).take
            (get_slice_len B.shape (trailingDims A.shape B.shape)))) := by
      rw [List.get?_map, List.get?_map, List.get?_range hk]
      simp only [Option.map_some']
      rw [hcurk]
    have hlenall : ∀ u ∈ ((List.range ((s.take (s.length -
        trailingDims A.shape B.shape)).prod)).map
        (fun k =>
          (compute_slice_index (List.replicate (s.length - A.shape.length) 1 ++
              A.shape.take (A.shape.length - trailingDims A.shape B.shape))
              (get_slice_len A.shape (trailingDims A.shape B.shape))
              ((unflatR (s.take (s.length - trailingDims A.shape B.shape)).reverse
                k).reverse),
           compute_slice_index (List.replicate (s.length - B.shape.length) 1 ++
              B.shape.take (B.shape.length - trailingDims A.shape B.shape))
              (get_slice_len B.shape (trailingDims A.shape B.shape))
              ((unflatR (s.take (s.length - trailingDims A.shape B.shape)).reverse
                k).reverse)))).map
        (fun o => List.zipWith f
          ((A.data.drop o.1).take
            (get_slice_len A.shape (trailingDims A.shape B.shape)))
          ((B.data.drop o.2).take
            (get_slice_len B.shape (trailingDims A.shape B.shape)))),
        u.length = (s.drop (s.length - trailingDims A.shape B.shape)).prod := by
      intro u hu
      rw [List.map_map] at hu
      obtain ⟨k, hk1, hk2⟩ := List.mem_map.mp hu
      rw [← hk2]
      dsimp only [Function.comp]
      rw [List.length_zipWith, List.length_take, List.length_take,
        List.length_drop, List.length_drop]
      have hbk1 := slice_offset_bound A.shape (trailingDims A.shape B.shape)
        (s.length - A.shape.length)
        ((unflatR (s.take (s.length - trailingDims A.shape B.shape)).reverse k).reverse)
        hA.1
      have hbk2 := slice_offset_bound B.shape (trailingDims A.shape B.shape)
        (s.length - B.shape.length)
        ((unflatR (s.take (s.length - trailingDims A.shape B.shape)).reverse k).reverse)
        hB.1
      rw [← hA.2] at hbk1
      rw [← hB.2] at hbk2
      omega
    have hjoin := join_get? ((s.drop (s.length - trailingDims A.shape B.shape)).prod)
      _ _ _ _ hlenall hcget hr
    rw [hjoin]
    have hu1 : ((A.data.drop (compute_slice_index
        (List.replicate (s.length - A.shape.length) 1 ++
          A.shape.take (A.shape.length - trailingDims A.shape B.shape))
        (get_slice_len A.shape (trailingDims A.shape B.shape))
        (i.take (s.length - trailingDims A.shape B.shape)))).take
        (get_slice_len A.shape (trailingDims A.shape B.shape))).get?
        (flatR (i.drop (s.length - trailingDims A.shape B.shape)).reverse
          (s.drop (s.length - trailingDims A.shape B.shape)).reverse) =
        A.data.get? (compute_slice_index
          (List.replicate (s.length - A.shape.length) 1 ++
            A.shape.take (A.shape.length - trailingDims A.shape B.shape))
          (get_slice_len A.shape (trailingDims A.shape B.shape))
          (i.take (s.length - trailingDims A.shape B.shape)) +
          flatR (i.drop (s.length - trailingDims A.shape B.shape)).reverse
            (s.drop (s.length - trailingDims A.shape B.shape)).reverse) := by
      rw [List.get?_take (by omega), List.get?_drop]
    have hu2 : ((B.data.drop (compute_slice_index
        (List.replicate (s.length - B.shape.length) 1 ++
          B.shape.take (B.shape.length - trailingDims A.shape B.shape))
        (get_slice_len B.shape (trailingDims A.shape B.shape))
        (i.take (s.length - trailingDims A.shape B.shape)))).take
        (get_slice_len B.shape (trailingDims A.shape B.shape))).get?
        (flatR (i.drop (s.length - trailingDims A.shape B.shape)).reverse
          (s.drop (s.length - trailingDims A.shape B.shape)).reverse) =
        B.data.get? (compute_slice_index
          (List.replicate (s.length - B.shape.length) 1 ++
            B.shape.take (B.shape.length - trailingDims A.shape B.shape))
          (get_slice_len B.shape (trailingDims A.shape B.shape))
          (i.take (s.length - trailingDims A.shape B.shape)) +
          flatR (i.drop (s.length - trailingDims A.shape B.shape)).reverse
            (s.drop (s.length - trailingDims A.shape B.shape)).reverse) := by
      rw [List.get?_take (by omega), List.get?_drop]
    exact zipWith_get? f _ _ _ _ _
      (hu1.trans (List.get?_eq_get hidx1)) (hu2.trans (List.get?_eq_get hidx2))

theorem elementwise_broadcast_spec (A B : Array) (f : ℚ → ℚ → ℚ) (s : List Nat)
    (hA : A.wellFormed) (hB : B.wellFormed)
    (hs : get_shape_after_broadcast A.shape B.shape = some s) :
    ∃ C, compute_elementwise_with_other_array A B f = some C ∧ C.shape = s ∧
      ∀ i, checkIndex s i = true →
        ∃ qa qb, A.i (specBroadcastIndex A.shape i) = some qa ∧
          B.i (specBroadcastIndex B.shape i) = some qb ∧
          C.i i = some (f qa qb) := by
  have hoffN := offs_norm_form A.shape B.shape s hs hA.1
  have hsome := compute_elementwise_data A B f s _ hs hoffN
  refine ⟨_, hsome, rfl, ?_⟩
  intro i hi
  have hf : ∀ x ∈ (List.range ((s.take (s.length -
      trailingDims A.shape B.shape)).prod)).map
      (fun k =>
        (compute_slice_index (List.replicate (s.length - A.shape.length) 1 ++
            A.shape.take (A.shape.length - trailingDims A.shape B.shape))
            (get_slice_len A.shape (trailingDims A.shape B.shape))
            ((unflatR (s.take (s.length - trailingDims A.shape B.shape)).reverse
              k).reverse),
         compute_slice_index (List.replicate (s.length - B.shape.length) 1 ++
            B.shape.take (B.shape.length - trailingDims A.shape B.shape))
            (get_slice_len B.shape (trailingDims A.shape B.shape))
            ((unflatR (s.take (s.length - trailingDims A.shape B.shape)).reverse
              k).reverse))),
      (List.zipWith f
        ((A.data.drop x.1).take (get_slice_len A.shape (trailingDims A.shape B.shape)))
        ((B.data.drop x.2).take
          (get_slice_len B.shape (trailingDims A.shape B.shape)))).length =
      (s.drop (s.length - trailingDims A.shape B.shape)).prod := by
    intro x hx
    obtain ⟨k, hk1, hk2⟩ := List.mem_map.mp hx
    rw [← hk2]
    dsimp only
    rw [List.length_zipWith, List.length_take, List.length_take,
      List.length_drop, List.length_drop]
    have hbk1 := slice_offset_bound A.shape (trailingDims A.shape B.shape)
      (s.length - A.shape.length)
      ((unflatR (s.take (s.length - trailingDims A.shape B.shape)).reverse k).reverse)
      hA.1
    have hbk2 := slice_offset_bound B.shape (trailingDims A.shape B.shape)
      (s.length - B.shape.length)
      ((unflatR (s.take (s.length - trailingDims A.shape B.shape)).reverse k).reverse)
      hB.1
    rw [← hA.2] at hbk1
    rw [← hB.2] at hbk2
    have hlen1 := get_slice_len_eq_out A.shape B.shape s hs
    have hlen2 := get_slice_len_eq_out2 A.shape B.shape s hs
    omega
  have hb : (List.replicate s.prod (0 : ℚ)).length =
      ((List.range ((s.take (s.length -
        trailingDims A.shape B.shape)).prod)).map
      (fun k =>
        (compute_slice_index (List.replicate (s.length - A.shape.length) 1 ++
            A.shape.take (A.shape.length - trailingDims A.shape B.shape))
            (get_slice_len A.shape (trailingDims A.shape B.shape))
            ((unflatR (s.take (s.length - trailingDims A.shape B.shape)).reverse
              k).reverse),
         compute_slice_index (List.replicate (s.length - B.shape.length) 1 ++
            B.shape.take (B.shape.length - trailingDims A.shape B.shape))
            (get_slice_len B.shape (trailingDims A.shape B.shape))
            ((unflatR (s.take (s.length - trailingDims A.shape B.shape)).reverse
              k).reverse)))).length *
      (s.drop (s.length - trailingDims A.shape B.shape)).prod := by
    rw [List.length_replicate, List.length_map, List.length_range]
    exact (List.prod_take_mul_prod_drop s _).symm
  have hdata : ((List.range ((s.take (s.length -
      trailingDims A.shape B.shape)).prod)).map
      (fun k =>
        (compute_slice_index (List.replicate (s.length - A.shape.length) 1 ++
            A.shape.take (A.shape.length - trailingDims A.shape B.shape))
            (get_slice_len A.shape (trailingDims A.shape B.shape))
            ((unflatR (s.take (s.length - trailingDims A.shape B.shape)).reverse
              k).reverse),
         compute_slice_index (List.replicate (s.length - B.shape.length) 1 ++
            B.shape.take (B.shape.length - trailingDims A.shape B.shape))
            (get_slice_len B.shape (trailingDims A.shape B.shape))
            ((unflatR (s.take (s.length - trailingDims A.shape B.shape)).reverse
              k).reverse)))).enum.foldl
      (fun buff x => writeChunk buff
        ((s.drop (s.length - trailingDims A.shape B.shape)).prod * x.1)
        (List.zipWith f
          ((A.data.drop x.2.1).take
            (get_slice_len A.shape (trailingDims A.shape B.shape)))
          ((B.data.drop x.2.2).take
            (get_slice_len B.shape (trailingDims A.shape B.shape)))))
      (List.replicate s.prod 0) =
      (((List.range ((s.take (s.length -
        trailingDims A.shape B.shape)).prod)).map
      (fun k =>
        (compute_slice_index (List.replicate (s.length - A.shape.length) 1 ++
            A.shape.take (A.shape.length - trailingDims A.shape B.shape))
            (get_slice_len A.shape (trailingDims A.shape B.shape))
            ((unflatR (s.take (s.length - trailingDims A.shape B.shape)).reverse
              k).reverse),
         compute_slice_index (List.replicate (s.length - B.shape.length) 1 ++
            B.shape.take (B.shape.length - trailingDims A.shape B.shape))
            (get_slice_len B.shape (trailingDims A.shape B.shape))
            ((unflatR (s.take (s.length - trailingDims A.shape B.shape)).reverse
              k).reverse)))).map
      (fun o => List.zipWith f
        ((A.data.drop o.1).take (get_slice_len A.shape (trailingDims A.shape B.shape)))
        ((B.data.drop o.2).take
          (get_slice_len B.shape (trailingDims A.shape B.shape))))).flatten :=
    foldl_writeChunk_enum_join ((s.drop (s.length - trailingDims A.shape B.shape)).prod)
      (fun o => List.zipWith f
        ((A.data.drop o.1).take (get_slice_len A.shape (trailingDims A.shape B.shape)))
        ((B.data.drop o.2).take
          (get_slice_len B.shape (trailingDims A.shape B.shape)))) _ _ hf hb
  obtain ⟨qa, qb, h1, h2, h3⟩ := element_spec A B f s i hA hB hs hi
  refine ⟨qa, qb, h1, h2, ?_⟩
  unfold Array.i
  dsimp only
  rw [if_pos hi, hdata]
  exact h3

/-- Claim C5 (confirmed): for well-formed arrays `A` and `B` (positive
dimensions, `data.len() == product(shape)`), `Array::add` fails exactly when
the shapes are not broadcast-compatible; otherwise it returns an array whose
shape is the broadcast result shape of the two operand shapes and whose
element at every valid output multi-index `i` equals `A` at `A`'s
broadcast-mapped index plus `B` at `B`'s broadcast-mapped index. -/
theorem C5_broadcast_add_correct (A B : Array)
    (hA : A.wellFormed) (hB : B.wellFormed) :
    (get_shape_after_broadcast A.shape B.shape = none → Array.add A B = none) ∧
    ∀ s, get_shape_after_broadcast A.shape B.shape = some s →
      ∃ C, Array.add A B = some C ∧ C.shape = s ∧
        ∀ i, checkIndex s i = true →
          ∃ qa qb, A.i (specBroadcastIndex A.shape i) = some qa ∧
            B.i (specBroadcastIndex B.shape i) = some qb ∧
            C.i i = some (qa + qb) := by
  constructor
  · intro hnone
    unfold Array.add compute_elementwise_with_other_array
    rw [hnone]
  · intro s hs
    exact elementwise_broadcast_spec A B (fun x y => x + y) s hA hB hs

/-- Witness for C5 at `A = [[1], [2]]` (shape `[2, 1]`) and
`B = [10, 20, 30]` (shape `[3]`). -/
theorem C5_witness :
    ({ shape := [2, 1], data := [1, 2] } : Array).wellFormed ∧
    ({ shape := [3], data := [10, 20, 30] } : Array).wellFormed ∧
    ((get_shape_after_broadcast ({ shape := [2, 1], data := [1, 2] } : Array).shape
        ({ shape := [3], data := [10, 20, 30] } : Array).shape = none →
      Array.add { shape := [2, 1], data := [1, 2] }
        { shape := [3], data := [10, 20, 30] } = none) ∧
    ∀ s, get_shape_after_broadcast ({ shape := [2, 1], data := [1, 2] } : Array).shape
        ({ shape := [3], data := [10, 20, 30] } : Array).shape = some s →
      ∃ C, Array.add { shape := [2, 1], data := [1, 2] }
          { shape := [3], data := [10, 20, 30] } = some C ∧ C.shape = s ∧
        ∀ i, checkIndex s i = true →
          ∃ qa qb, Array.i { shape := [2, 1], data := [1, 2] }
              (specBroadcastIndex
                ({ shape := [2, 1], data := [1, 2] } : Array).shape i) = some qa ∧
            Array.i { shape := [3], data := [10, 20, 30] }
              (specBroadcastIndex
                ({ shape := [3], data := [10, 20, 30] } : Array).shape i) = some qb ∧
            C.i i = some (qa + qb)) :=
  ⟨⟨by decide, rfl⟩, ⟨by decide, rfl⟩,
    C5_broadcast_add_correct _ _ ⟨by decide, rfl⟩ ⟨by decide, rfl⟩⟩

end Neurust
